import Mathlib

/-!
Verification of the exchange-smtp mail-assembly core.

Go strings and byte slices are modelled as `List Nat` (one entry per byte).
The collaborators the assembler calls — the secure random source
(crypto/rand), the quoted-printable writer (mime/quotedprintable), and the
filesystem read (os.ReadFile) — are passed to the model as explicit
parameters, mirroring the observable interface the Go code uses.
-/

/-- Bytes of an ASCII string literal (used only with ASCII literals). -/
def ascii (s : String) : List Nat := s.toList.map Char.toNat

/-- The CRLF line terminator. -/
def crlf : List Nat := [13, 10]

/-- ASCII letter, byte-level (`[a-zA-Z]`). -/
def isAlphaB (b : Nat) : Bool := (65 ≤ b && b ≤ 90) || (97 ≤ b && b ≤ 122)

/-- ASCII digit, byte-level (`[0-9]`). -/
def isDigitB (b : Nat) : Bool := 48 ≤ b && b ≤ 57

/-- Character class of the regex local part: `[a-zA-Z0-9._%+\-]`. -/
def isLocalB (b : Nat) : Bool :=
  isAlphaB b || isDigitB b || b = 46 || b = 95 || b = 37 || b = 43 || b = 45

/-- Character class of the regex domain middle: `[a-zA-Z0-9.\-]`. -/
def isDomMidB (b : Nat) : Bool := isAlphaB b || isDigitB b || b = 46 || b = 45

/-- Character class of a domain label in the spec grammar: letters, digits, `-`. -/
def isDomLabelB (b : Nat) : Bool := isAlphaB b || isDigitB b || b = 45

/-- Matches the regex tail `[a-zA-Z]{2,}$`. -/
def matchTld (t : List Nat) : Bool := t.all isAlphaB && decide (2 ≤ t.length)

/-- Matches `[a-zA-Z0-9.\-]*\.[a-zA-Z]{2,}$`: some run of domain-middle
characters, then the dot introducing the final letters-only label. -/
def matchDotTld : List Nat → Bool
  | [] => false
  | b :: rest =>
    if b = 46 then matchTld rest || matchDotTld rest
    else isDomMidB b && matchDotTld rest

/-- Matches `[a-zA-Z0-9.\-]+\.[a-zA-Z]{2,}$` (the regex domain). -/
def matchDomain : List Nat → Bool
  | [] => false
  | b :: rest => isDomMidB b && matchDotTld rest

/-- Matches `[a-zA-Z0-9._%+\-]*@domain$`, at least one local char consumed. -/
def matchLocalAt : List Nat → Bool
  | [] => false
  | b :: rest =>
    if b = 64 then matchDomain rest
    else isLocalB b && matchLocalAt rest

/-- ValidateEmail from the source: `regexp.MustCompile` of
`^[a-zA-Z0-9._%+\-]+@[a-zA-Z0-9.\-]+\.[a-zA-Z]{2,}$` applied with
MatchString.  The matcher is expressed as a recursive recognizer of the
same language: at least one local-class byte, `@`, then the domain. -/
def ValidateEmail (s : List Nat) : Bool :=
  match s with
  | [] => false
  | b :: rest => isLocalB b && matchLocalAt rest

/-- Splitting a byte list at every occurrence of byte `b`
(the semantics of strings.Split / of reading a list of `.`-separated labels). -/
def splitOnB (b : Nat) : List Nat → List (List Nat)
  | [] => [[]]
  | c :: rest =>
    if c = b then [] :: splitOnB b rest
    else (splitOnB b rest).modifyHead (c :: ·)

/-- Joining byte lists with a single separator byte (inverse of splitOnB). -/
def joinSep (b : Nat) : List (List Nat) → List Nat
  | [] => []
  | [x] => x
  | x :: rest => x ++ b :: joinSep b rest

/-- Claim C4's grammar, written from the spec's words: `local@domain`,
local one-or-more of letters/digits/`._%+-`, domain one or more labels
separated by `.`, each label one-or-more of letters/digits/`-`, final
label letters-only of length at least 2. -/
def specEmailGrammar (s : List Nat) : Bool :=
  match splitOnB 64 s with
  | [l, d] =>
    decide (l ≠ []) && l.all isLocalB &&
    (let ls := splitOnB 46 d
     ls.all (fun p => decide (p ≠ []) && p.all isDomLabelB) &&
     (match ls.getLast? with
      | some t => matchTld t
      | none => false))
  | _ => false

/-- The grammar the code actually recognizes, in the spec's label
vocabulary: at least two `.`-separated labels, labels drawn from
letters/digits/`-` but possibly empty, final label letters-only of length
at least 2, and at least one character before the final dot (so with
exactly two labels the first must be non-empty). -/
def amendedEmailGrammar (s : List Nat) : Bool :=
  match splitOnB 64 s with
  | [l, d] =>
    decide (l ≠ []) && l.all isLocalB &&
    (let ls := splitOnB 46 d
     decide (2 ≤ ls.length) &&
     ls.all (fun p => p.all isDomLabelB) &&
     (match ls.getLast? with
      | some t => matchTld t
      | none => false) &&
     !(decide (ls.length = 2) && decide (ls.head? = some [])))
  | _ => false

/-- The standard base64 alphabet used by Go's encoding/base64 StdEncoding,
as byte values: A-Z, a-z, 0-9, +, /. -/
def b64table : List Nat :=
  ascii "ABCDEFGHIJKLMNOPQRSTUVWXYZabcdefghijklmnopqrstuvwxyz0123456789+/"

/-- The alphabet byte for a 6-bit value. -/
def b64c (n : Nat) : Nat := b64table.getD n 0

/-- base64.StdEncoding.Encode: groups of three input bytes become four
alphabet bytes; a final group of one or two bytes is padded with `=` (61).
Shifts and masks (`val>>18&0x3F` etc.) are written as division and
remainder by the corresponding powers of two. -/
def base64Encode : List Nat → List Nat
  | [] => []
  | [a] =>
    let val := a * 65536
    [b64c (val / 262144 % 64), b64c (val / 4096 % 64), 61, 61]
  | [a, b] =>
    let val := a * 65536 + b * 256
    [b64c (val / 262144 % 64), b64c (val / 4096 % 64), b64c (val / 64 % 64), 61]
  | a :: b :: c :: rest =>
    let val := a * 65536 + b * 256 + c
    b64c (val / 262144 % 64) :: b64c (val / 4096 % 64) ::
      b64c (val / 64 % 64) :: b64c (val % 64) :: base64Encode rest

/-- Position of an alphabet byte in the base64 table (the standard decoder's
value of a character). -/
def b64d (c : Nat) : Nat := b64table.indexOf c

/-- Standard padded base64 decoding (the inverse transform named by the
round-trip property): four input bytes yield three output bytes, with `=`
padding cutting the final group to one or two bytes. -/
def base64Decode : List Nat → List Nat
  | c1 :: c2 :: c3 :: c4 :: rest =>
    if c3 = 61 then [(b64d c1 * 4 + b64d c2 / 16) % 256]
    else if c4 = 61 then
      [(b64d c1 * 4 + b64d c2 / 16) % 256, (b64d c2 % 16 * 16 + b64d c3 / 4) % 256]
    else
      (b64d c1 * 4 + b64d c2 / 16) % 256 :: (b64d c2 % 16 * 16 + b64d c3 / 4) % 256 ::
        (b64d c3 % 4 * 64 + b64d c4) % 256 :: base64Decode rest
  | _ => []

/-- Dropping every CR and LF byte (the line-unwrapping step of the
round-trip property). -/
def removeCRLF (l : List Nat) : List Nat := l.filter (fun b => !(b = 13 || b = 10))

/-- The lines of a byte stream: split at every CRLF pair.  The line-length
bound of the spec is a statement about every entry of this list. -/
def splitCRLF : List Nat → List (List Nat)
  | [] => [[]]
  | [b] => [[b]]
  | b :: c :: rest =>
    if b = 13 ∧ c = 10 then [] :: splitCRLF rest
    else (splitCRLF (c :: rest)).modifyHead (b :: ·)

/-- The wrapping loop of writeBytes: emit each payload byte, inserting CRLF
whenever the one-based index of the byte just written is divisible by 76. -/
def wrapLoop : List Nat → Nat → List Nat
  | [], _ => []
  | b :: rest, idx =>
    b :: (if (idx + 1) % 76 = 0 then [13, 10] else []) ++ wrapLoop rest (idx + 1)

/-- writeBytes from the source: base64-encode the file, write a CRLF (the
blank line ending the part headers), then the wrapping loop from index 0.
The Go method returns an always-nil error, so it is modelled as total. -/
def writeBytesOut (file : List Nat) : List Nat :=
  crlf ++ wrapLoop (base64Encode file) 0

/-- Same wrapping expressed with a countdown: `r` bytes remain in the
current line; when it reaches the end of a line a CRLF is emitted and the
budget resets to 76. -/
def chunkWrap : Nat → List Nat → List Nat
  | _, [] => []
  | r, b :: rest =>
    b :: (if r = 1 then 13 :: 10 :: chunkWrap 76 rest else chunkWrap (r - 1) rest)

/-- Fuelled splitter into consecutive 76-byte blocks; each step consumes at
least one byte, so fuel equal to the length never runs out. -/
def chunks76F : Nat → List Nat → List (List Nat)
  | 0, _ => []
  | _, [] => []
  | n + 1, b :: t => ((b :: t).take 76) :: chunks76F n ((b :: t).drop 76)

/-- The payload split into consecutive 76-byte blocks, the last possibly
shorter. -/
def chunks76 (s : List Nat) : List (List Nat) := chunks76F s.length s

/-- Claim C1's binary-encoder output, written from the spec's words:
the base64 stream hard-wrapped with a CRLF inserted after every 76
characters, including after the final line even when shorter than 76,
and nothing else. -/
def specEncodeBinary (file : List Nat) : List Nat :=
  ((chunks76 (base64Encode file)).map (· ++ crlf)).flatten

/-- Upper-case hex digit byte for a 4-bit value (the `upperhex` table). -/
def hexUp (n : Nat) : Nat := (ascii "0123456789ABCDEF").getD n 0

/-- Lower-case hex digit byte for a 4-bit value (fmt's `%x`). -/
def hexLo (n : Nat) : Nat := (ascii "0123456789abcdef").getD n 0

/-- State of Go's quotedprintable.Writer (non-Binary mode, writing to an
in-memory buffer): the flushed output, the pending line buffer `line[:i]`,
and the `cr` flag tracking a just-seen carriage return. -/
structure QPW where
  out : List Nat
  line : List Nat
  cr : Bool

/-- flush: move the pending line buffer to the underlying buffer. -/
def qpFlush (w : QPW) : QPW := { w with out := w.out ++ w.line, line := [] }

/-- insertCRLF: append CR LF to the line buffer and flush. -/
def qpInsertCRLF (w : QPW) : QPW := qpFlush { w with line := w.line ++ [13, 10] }

/-- insertSoftLineBreak: append `=` then CRLF-flush. -/
def qpSoftBreak (w : QPW) : QPW := qpInsertCRLF { w with line := w.line ++ [61] }

/-- encode: escape one byte as `=XX`, soft-breaking first when fewer than
three slots remain before the 76-character limit. -/
def qpEncodeB (b : Nat) (w : QPW) : QPW :=
  if 75 - w.line.length < 3 then
    { qpSoftBreak w with
      line := (qpSoftBreak w).line ++ [61, hexUp (b / 16 % 16), hexUp (b % 16)] }
  else { w with line := w.line ++ [61, hexUp (b / 16 % 16), hexUp (b % 16)] }

/-- checkLastByte: before a line break or at close, a trailing space or tab
is removed from the buffer and re-emitted escaped. -/
def qpCheckLast (w : QPW) : QPW :=
  match w.line.getLast? with
  | some b =>
    if b = 32 || b = 9 then qpEncodeB b { w with line := w.line.dropLast }
    else w
  | none => w

/-- write, for one literal byte: CR and LF fold to a single CRLF line break
(with the trailing-whitespace check first); other bytes go to the line
buffer, soft-breaking at 75 buffered characters. -/
def qpWriteB (b : Nat) (w : QPW) : QPW :=
  if b = 13 || b = 10 then
    if w.cr && b = 10 then { w with cr := false }
    else qpInsertCRLF (qpCheckLast { w with cr := b = 13 })
  else
    if w.line.length = 75 then
      { qpSoftBreak w with line := (qpSoftBreak w).line ++ [b], cr := false }
    else { w with line := w.line ++ [b], cr := false }

/-- One input byte of Writer.Write: printable bytes other than `=`, the
whitespace bytes, and CR/LF pass to write; everything else is escaped. -/
def qpStep (w : QPW) (b : Nat) : QPW :=
  if (33 ≤ b && b ≤ 126 && b ≠ 61) || b = 32 || b = 9 || b = 10 || b = 13 then qpWriteB b w
  else qpEncodeB b w

/-- Close: escape a trailing space or tab, then flush. -/
def qpClose (w : QPW) : QPW := qpFlush (qpCheckLast w)

/-- The quoted-printable encoding of a byte sequence: NewWriter on an empty
buffer, Write the bytes, Close, read the buffer. -/
def qpGo (p : List Nat) : List Nat :=
  (qpClose (p.foldl qpStep { out := [], line := [], cr := false })).out

/-- needsEncoding from mime/encodedword.go: some byte outside printable
ASCII that is not a tab.  (Go phrases this over runes; a byte outside
0x20..0x7e and not 0x09 occurs exactly when some decoded rune falls
outside that printable range.) -/
def needsEncoding (s : List Nat) : Bool :=
  s.any (fun b => (b < 32 && b ≠ 9) || 126 < b)

/-- Number of bytes consumed by utf8.DecodeRune at the head of the list:
the length of a valid UTF-8 encoding, and 1 on any invalid or truncated
sequence. -/
def utf8RuneLen (l : List Nat) : Nat :=
  match l with
  | [] => 1
  | b0 :: rest =>
    if b0 < 128 then 1
    else if 194 ≤ b0 && b0 ≤ 223 then
      match rest with
      | b1 :: _ => if 128 ≤ b1 && b1 ≤ 191 then 2 else 1
      | _ => 1
    else if 224 ≤ b0 && b0 ≤ 239 then
      match rest with
      | b1 :: b2 :: _ =>
        let lo1 := if b0 = 224 then 160 else 128
        let hi1 := if b0 = 237 then 159 else 191
        if lo1 ≤ b1 && b1 ≤ hi1 && 128 ≤ b2 && b2 ≤ 191 then 3 else 1
      | _ => 1
    else if 240 ≤ b0 && b0 ≤ 244 then
      match rest with
      | b1 :: b2 :: b3 :: _ =>
        let lo1 := if b0 = 240 then 144 else 128
        let hi1 := if b0 = 244 then 143 else 191
        if lo1 ≤ b1 && b1 ≤ hi1 && 128 ≤ b2 && b2 ≤ 191 && 128 ≤ b3 && b3 ≤ 191 then 4
        else 1
      | _ => 1
    else 1

/-- writeQString from mime/encodedword.go: space becomes `_`, printable
bytes other than `=`, `?`, `_` pass through, everything else becomes
`=XX` with upper-case hex. -/
def writeQString (s : List Nat) : List Nat :=
  s.flatMap (fun b =>
    if b = 32 then [95]
    else if 33 ≤ b && b ≤ 126 && b ≠ 61 && b ≠ 63 && b ≠ 95 then [b]
    else [61, hexUp (b / 16 % 16), hexUp (b % 16)])

/-- splitWord for charset utf-8: close the encoded word, fold the header
with CRLF-space, open the next word. -/
def qSplitSeq : List Nat := ascii "?=" ++ crlf ++ ascii " =?utf-8?q?"

/-- The Q-encoding loop of mime/encodedword.go for charset "utf-8": one
printable non-special byte costs 1, anything else is a whole rune costing
3 bytes per encoded byte; when the running cost would pass the 63 content
bytes that fit a 75-byte encoded word, the word is split.  Fuel equal to
the input length suffices since every step consumes at least one byte. -/
def qEncodeLoop : Nat → List Nat → Nat → List Nat
  | 0, _, _ => []
  | _, [], _ => []
  | fuel + 1, b :: rest, cur =>
    let simple := 32 ≤ b && b ≤ 126 && b ≠ 61 && b ≠ 63 && b ≠ 95
    let rl := if simple then 1 else utf8RuneLen (b :: rest)
    let el := if simple then 1 else 3 * rl
    let split := 63 < cur + el
    (if split then qSplitSeq else []) ++ writeQString ((b :: rest).take rl) ++
      qEncodeLoop fuel ((b :: rest).drop rl) (if split then el else cur + el)

/-- mime.QEncoding.Encode("utf-8", s): unchanged when no byte needs
encoding, otherwise wrapped into `=?utf-8?q?...?=` encoded words. -/
def mimeQEncode (s : List Nat) : List Nat :=
  if needsEncoding s then ascii "=?utf-8?q?" ++ qEncodeLoop s.length s 0 ++ ascii "?="
  else s

/-- MailType from the source. -/
inductive MailType where
  | PlainText
  | HTML
deriving DecidableEq

/-- MailType.String via the mailTypeNames table. -/
def MailType.str : MailType → List Nat
  | .PlainText => ascii "text/plain"
  | .HTML => ascii "text/html"

/-- AttachmentFile from the source. -/
structure AttachmentFile where
  Name : List Nat
  ContentType : List Nat
  Body : List Nat
deriving DecidableEq

/-- InlineFile from the source. -/
structure InlineFile where
  CID : List Nat
  Name : List Nat
  ContentType : List Nat
  Body : List Nat
deriving DecidableEq

/-- Mail from the validating, inline-capable source file. -/
structure Mail where
  MT : MailType
  From : List Nat
  To : List (List Nat)
  Subject : List Nat
  Body : List Nat
  Attachment : List AttachmentFile
  Inline : List InlineFile
deriving DecidableEq

/-- Mail from mail.go: no inline resources, plus an unused unexported
contentType field. -/
structure Mail1 where
  MT : MailType
  From : List Nat
  To : List (List Nat)
  Subject : List Nat
  Body : List Nat
  contentType : List Nat
  Attachment : List AttachmentFile
deriving DecidableEq

/-- The secure random source as a capability: the bytes the k-th
crypto/rand.Read call writes into the 16-byte buffer, and whether that
call reported an error. -/
def RandSrc : Type := Nat → List Nat × Bool

/-- The quoted-printable writer collaborator: the combined outcome of
qp.Write followed by qp.Close on the message body — either the encoded
bytes or the error of the failing write. -/
def QPEnc : Type := List Nat → Except (List Nat) (List Nat)

/-- The filesystem collaborator os.ReadFile: file bytes or a read error. -/
def FS : Type := List Nat → Except (List Nat) (List Nat)

/-- generateBoundary: a 16-byte zeroed buffer is passed to rand.Read, whose
results (count and error) the source discards, and the buffer is formatted
as `boundary-` plus 32 lower-case hex digits.  The model keeps the bytes
the read managed to supply (a byte each, hence the mod 256) and zero for
the rest; the error flag is not consulted, exactly as in the source. -/
def generateBoundary (src : RandSrc) (k : Nat) : List Nat :=
  let supplied := ((src k).1.take 16).map (· % 256)
  let buf := supplied ++ List.replicate (16 - supplied.length) 0
  ascii "boundary-" ++ buf.flatMap (fun b => [hexLo (b / 16 % 16), hexLo (b % 16)])

/-- strings.Join with separator ", ". -/
def joinComma : List (List Nat) → List Nat
  | [] => []
  | [x] => x
  | x :: rest => x ++ ascii ", " ++ joinComma rest

/-- The four header lines ToBytes writes first: From, To (comma-space
joined), Subject (mime.QEncoding with charset "utf-8"), MIME-Version. -/
def headerLines (FromA : List Nat) (To : List (List Nat)) (Subject : List Nat) : List Nat :=
  ascii "From: " ++ FromA ++ crlf ++
  ascii "To: " ++ joinComma To ++ crlf ++
  ascii "Subject: " ++ mimeQEncode Subject ++ crlf ++
  ascii "MIME-Version: 1.0" ++ crlf

/-- Content type of a part with the empty-string default applied:
application/octet-stream when none is declared. -/
def ctOrDefault (ct : List Nat) : List Nat :=
  if ct = [] then ascii "application/octet-stream" else ct

/-- The body-part headers: Content-Type with the UTF-8 charset and the
quoted-printable transfer encoding, then the blank line. -/
def bodyHdrs (mt : MailType) : List Nat :=
  ascii "Content-Type: " ++ mt.str ++ ascii "; charset=UTF-8" ++ crlf ++
  ascii "Content-Transfer-Encoding: quoted-printable" ++ crlf ++ crlf

/-- One inline part: related-boundary delimiter, part headers including
Content-ID and inline disposition, then the writeBytes payload. -/
def inlineChunk (relB : List Nat) (f : InlineFile) : List Nat :=
  crlf ++ ascii "--" ++ relB ++ crlf ++
  ascii "Content-Type: " ++ ctOrDefault f.ContentType ++ ascii "; name=\"" ++ f.Name ++
    ascii "\"" ++ crlf ++
  ascii "Content-Transfer-Encoding: base64" ++ crlf ++
  ascii "Content-ID: <" ++ f.CID ++ ascii ">" ++ crlf ++
  ascii "Content-Disposition: inline; filename=\"" ++ f.Name ++ ascii "\"" ++ crlf ++
  writeBytesOut f.Body

/-- The attachment loop, shared verbatim by both source variants: each file
gets an outer-boundary delimiter, its part headers, and its base64 payload
— from its own bytes when non-empty, otherwise from reading the file named
by its Name; a read failure aborts the assembly with that error. -/
def attachmentChunks (fs : FS) (boundary : List Nat) : List AttachmentFile →
    Except (List Nat) (List Nat)
  | [] => .ok []
  | f :: rest =>
    let hdr := crlf ++ ascii "--" ++ boundary ++ crlf ++
      ascii "Content-Type: " ++ ctOrDefault f.ContentType ++ ascii "; name=\"" ++ f.Name ++
        ascii "\"" ++ crlf ++
      ascii "Content-Transfer-Encoding: base64" ++ crlf ++
      ascii "Content-Disposition: attachment; filename=\"" ++ f.Name ++ ascii "\"" ++ crlf
    if f.Body.length > 0 then
      (attachmentChunks fs boundary rest).map (fun r => hdr ++ writeBytesOut f.Body ++ r)
    else
      match fs f.Name with
      | .error e => .error e
      | .ok bytes =>
        (attachmentChunks fs boundary rest).map (fun r => hdr ++ writeBytesOut bytes ++ r)

/-- The assembly performed by the validating ToBytes after its precondition
checks: headers, the optional multipart/mixed wrapper, the body (inside a
multipart/related container when inline files are present), the
attachments, and the closing delimiter. -/
def assembleBody (m : Mail) (src : RandSrc) (qp : QPEnc) (fs : FS) :
    Except (List Nat) (List Nat) :=
  let boundary := generateBoundary src 0
  let hasA := !m.Attachment.isEmpty
  let hasI := !m.Inline.isEmpty
  let mixedHdr :=
    if hasA || hasI then
      ascii "Content-Type: multipart/mixed; boundary=" ++ boundary ++ crlf ++ crlf ++
        ascii "--" ++ boundary ++ crlf
    else []
  let bodySec : Except (List Nat) (List Nat) :=
    if hasI then
      let relB := generateBoundary src 1
      (qp m.Body).map (fun qpB =>
        ascii "Content-Type: multipart/related; boundary=" ++ relB ++ crlf ++ crlf ++
          ascii "--" ++ relB ++ crlf ++
        bodyHdrs m.MT ++ qpB ++
        (m.Inline.map (inlineChunk relB)).flatten ++
        crlf ++ ascii "--" ++ relB ++ ascii "--" ++ crlf)
    else
      (qp m.Body).map (fun qpB => bodyHdrs m.MT ++ qpB)
  match bodySec with
  | .error e => .error e
  | .ok bodyS =>
    match (if hasA then attachmentChunks fs boundary m.Attachment else .ok []) with
    | .error e => .error e
    | .ok attS =>
      .ok (headerLines m.From m.To m.Subject ++ mixedHdr ++ bodyS ++ attS ++
        (if hasA || hasI then crlf ++ ascii "--" ++ boundary ++ ascii "--" ++ crlf else []))

/-- ToBytes of the validating, inline-capable variant: the Go pair
(buffer, error), nil modelled as none.  Preconditions run first, in
source order, each returning (nil, its error); the first invalid `to`
entry is the one the range loop hits first. -/
def Mail.ToBytes (m : Mail) (src : RandSrc) (qp : QPEnc) (fs : FS) :
    Option (List Nat) × Option (List Nat) :=
  if m.To = [] then (none, some (ascii "recipient list is empty"))
  else if m.Body = [] then (none, some (ascii "email body is empty"))
  else if ValidateEmail m.From then
    match m.To.find? (fun a => !ValidateEmail a) with
    | some a => (none, some (ascii "invalid To email address: " ++ a))
    | none =>
      match assembleBody m src qp fs with
      | .error e => (none, some e)
      | .ok bytes => (some bytes, none)
  else (none, some (ascii "invalid From email address: " ++ m.From))

/-- ToBytes of the mail.go variant: no address validation and no inline
support; the closing outer delimiter is written inside the attachment
branch. -/
def Mail1.ToBytes (m : Mail1) (src : RandSrc) (qp : QPEnc) (fs : FS) :
    Option (List Nat) × Option (List Nat) :=
  if m.To = [] then (none, some (ascii "recipient list is empty"))
  else if m.Body = [] then (none, some (ascii "email body is empty"))
  else
    let boundary := generateBoundary src 0
    let hasA := !m.Attachment.isEmpty
    let mixedHdr :=
      if hasA then
        ascii "Content-Type: multipart/mixed; boundary=" ++ boundary ++ crlf ++ crlf ++
          ascii "--" ++ boundary ++ crlf
      else []
    match qp m.Body with
    | .error e => (none, some e)
    | .ok qpB =>
      match (if hasA then attachmentChunks fs boundary m.Attachment else .ok []) with
      | .error e => (none, some e)
      | .ok attS =>
        (some (headerLines m.From m.To m.Subject ++ mixedHdr ++ bodyHdrs m.MT ++ qpB ++
          (if hasA then attS ++ crlf ++ ascii "--" ++ boundary ++ ascii "--" ++ crlf
           else [])), none)

/-- A randomness source supplying all-zero bytes without error. -/
def srcZero : RandSrc := fun _ => ([], false)

/-- A randomness source that always fails, supplying no bytes. -/
def srcFail : RandSrc := fun _ => ([], true)

/-- The real quoted-printable collaborator: Write and Close on an
in-memory buffer never fail, yielding the qpGo encoding. -/
def qpReal : QPEnc := fun b => .ok (qpGo b)

/-- A filesystem where every read fails with a not-found error. -/
def fsNone : FS := fun _ => .error (ascii "open: no such file")


/-- Conversion between the two message models: the shared fields carry
over; mail.go's unused unexported contentType starts empty. -/
def Mail.toV1 (m : Mail) : Mail1 :=
  { MT := m.MT, From := m.From, To := m.To, Subject := m.Subject, Body := m.Body,
    contentType := [], Attachment := m.Attachment }

/-- The spec's plain-text scenario message: no attachments, no inline
resources. -/
def mScenario : Mail :=
  { MT := .PlainText, From := ascii "a@b.com", To := [ascii "c@d.com"],
    Subject := ascii "Hi", Body := ascii "hello", Attachment := [], Inline := [] }

/-- The scenario message with one attachment carrying its own bytes. -/
def mScenarioAtt : Mail :=
  { mScenario with Attachment := [AttachmentFile.mk (ascii "f.txt") [] (ascii "data")] }

/-- A message with an empty recipient list. -/
def mEmptyTo : Mail := { mScenario with To := [] }

/-- A message with an empty body. -/
def mEmptyBody : Mail := { mScenario with Body := [] }

/-- A message whose From address fails the validator. -/
def mBadFrom : Mail := { mScenario with From := ascii "invalid" }

/-- A message whose second To entry is the first to fail the validator. -/
def mBadTo : Mail := { mScenario with To := [ascii "c@d.com", ascii "nope", ascii "x"] }

/-- The scenario message with an ASCII control byte (BEL, 0x07) as its
subject. -/
def mCtrlSubject : Mail := { mScenario with Subject := [7] }

/-!
Sanity checks: concrete evaluations pinning the embedded definitions to the
behaviour of the source (validator test-table entries, encoder samples, the
spec's plain-text scenario).
-/

example : ValidateEmail (ascii "user@example.com") = true := by decide
example : ValidateEmail (ascii "user+tag@example.co.uk") = true := by decide
example : ValidateEmail (ascii "invalid") = false := by decide
example : ValidateEmail (ascii "@example.com") = false := by decide
example : ValidateEmail (ascii "user@") = false := by decide
example : ValidateEmail (ascii "user @example.com") = false := by decide
example : ValidateEmail (ascii "a@.com") = false := by decide
example : base64Encode (ascii "This is the content of the file.") =
    ascii "VGhpcyBpcyB0aGUgY29udGVudCBvZiB0aGUgZmlsZS4=" := by decide
example : writeBytesOut [0] = [13, 10, 65, 65, 61, 61] := by decide
example : qpGo (ascii "hello") = ascii "hello" := by decide
example : qpGo (ascii "a=b") = ascii "a=3Db" := by decide
example : qpGo [195, 169] = ascii "=C3=A9" := by decide
example : qpGo (ascii "x ") = ascii "x=20" := by decide
example : qpGo (ascii "a" ++ [10] ++ ascii "b") = ascii "a" ++ [13, 10] ++ ascii "b" := by
  decide
example : mimeQEncode (ascii "Hi") = ascii "Hi" := by decide
example : mimeQEncode [7] = ascii "=?utf-8?q?=07?=" := by decide
example : mimeQEncode (ascii "a" ++ [195, 169] ++ ascii "b") =
    ascii "=?utf-8?q?a=C3=A9b?=" := by decide

set_option maxRecDepth 4096 in
example :
    (Mail.ToBytes mScenario srcZero qpReal fsNone).1 =
    some (ascii "From: a@b.com" ++ crlf ++ ascii "To: c@d.com" ++ crlf ++
      ascii "Subject: Hi" ++ crlf ++ ascii "MIME-Version: 1.0" ++ crlf ++
      ascii "Content-Type: text/plain; charset=UTF-8" ++ crlf ++
      ascii "Content-Transfer-Encoding: quoted-printable" ++ crlf ++ crlf ++
      ascii "hello") := by decide

/-- Every ToBytes result is either a buffer with a nil error or a nil
buffer with an error: each return site of the source produces one of the
two shapes. -/
theorem toBytes_shape (m : Mail) (src : RandSrc) (qp : QPEnc) (fs : FS) :
    (∃ b, m.ToBytes src qp fs = (some b, none)) ∨
    (∃ e, m.ToBytes src qp fs = (none, some e)) := by
  unfold Mail.ToBytes
  repeat' split
  all_goals first
    | exact .inl ⟨_, rfl⟩
    | exact .inr ⟨_, rfl⟩

/-- C2: ToBytes checks its preconditions first, in source order — empty
recipients, then empty body, then the From address, then the first
failing To entry — each aborting with its own error and a nil buffer. -/
theorem toBytes_precondition_order (m : Mail) (src : RandSrc) (qp : QPEnc) (fs : FS) :
    (m.To = [] →
      m.ToBytes src qp fs = (none, some (ascii "recipient list is empty"))) ∧
    (m.To ≠ [] → m.Body = [] →
      m.ToBytes src qp fs = (none, some (ascii "email body is empty"))) ∧
    (m.To ≠ [] → m.Body ≠ [] → ValidateEmail m.From = false →
      m.ToBytes src qp fs = (none, some (ascii "invalid From email address: " ++ m.From))) ∧
    (∀ a, m.To ≠ [] → m.Body ≠ [] → ValidateEmail m.From = true →
      m.To.find? (fun x => !ValidateEmail x) = some a →
      m.ToBytes src qp fs = (none, some (ascii "invalid To email address: " ++ a))) := by
  refine ⟨?_, ?_, ?_, ?_⟩ <;> intros <;> simp [Mail.ToBytes, *]

/-- C2 witness: each of the four preconditions observed failing on a
concrete message, in the stated order. -/
theorem toBytes_precondition_order_witness :
    Mail.ToBytes mEmptyTo srcZero qpReal fsNone =
      (none, some (ascii "recipient list is empty")) ∧
    Mail.ToBytes mEmptyBody srcZero qpReal fsNone =
      (none, some (ascii "email body is empty")) ∧
    Mail.ToBytes mBadFrom srcZero qpReal fsNone =
      (none, some (ascii "invalid From email address: invalid")) ∧
    Mail.ToBytes mBadTo srcZero qpReal fsNone =
      (none, some (ascii "invalid To email address: nope")) := by
  refine ⟨(toBytes_precondition_order mEmptyTo srcZero qpReal fsNone).1 rfl,
    (toBytes_precondition_order mEmptyBody srcZero qpReal fsNone).2.1 (by decide) rfl,
    (toBytes_precondition_order mBadFrom srcZero qpReal fsNone).2.2.1 (by decide)
      (by decide) (by decide),
    (toBytes_precondition_order mBadTo srcZero qpReal fsNone).2.2.2 (ascii "nope")
      (by decide) (by decide) (by decide) (by decide)⟩

/-- C3: whenever ToBytes reports an error — for any behaviour of the
quoted-printable writer and the filesystem — the buffer it returns is
nil. -/
theorem toBytes_nil_on_error (m : Mail) (src : RandSrc) (qp : QPEnc) (fs : FS)
    (e : List Nat) (h : (m.ToBytes src qp fs).2 = some e) :
    (m.ToBytes src qp fs).1 = none := by
  rcases toBytes_shape m src qp fs with ⟨b, hb⟩ | ⟨e', he⟩
  · rw [hb] at h
    exact absurd h (by simp)
  · rw [he]

/-- C3 witness: a failing quoted-printable writer on a concrete message
yields an error with a nil buffer. -/
theorem toBytes_nil_on_error_witness :
    (Mail.ToBytes mScenario srcZero (fun _ => .error (ascii "qp fail")) fsNone).2 =
      some (ascii "qp fail") ∧
    (Mail.ToBytes mScenario srcZero (fun _ => .error (ascii "qp fail")) fsNone).1 =
      none := by
  refine ⟨by decide, toBytes_nil_on_error mScenario srcZero _ fsNone (ascii "qp fail")
    (by decide)⟩

/-- Length of the hex rendering: two hex digits per buffer byte. -/
theorem flatMap_hex_length (l : List Nat) :
    (l.flatMap fun b => [hexLo (b / 16 % 16), hexLo (b % 16)]).length = 2 * l.length := by
  induction l with
  | nil => rfl
  | cons a t ih =>
    simp [List.flatMap_cons, ih]
    omega

set_option maxRecDepth 16384 in
/-- C5 counterexample: with a randomness source that fails to supply any
bytes, ToBytes on a message that actually uses a boundary still succeeds —
no error of any kind (in particular no RandomnessFailure) reaches the
caller, and the result is identical to the one with a healthy all-zero
source. -/
theorem randomness_failure_ignored_counterexample :
    (Mail.ToBytes mScenarioAtt srcFail qpReal fsNone).2 = none ∧
    (Mail.ToBytes mScenarioAtt srcFail qpReal fsNone).1.isSome = true ∧
    Mail.ToBytes mScenarioAtt srcFail qpReal fsNone =
      Mail.ToBytes mScenarioAtt srcZero qpReal fsNone := by
  refine ⟨by decide, by decide, by decide⟩

/-- C5, amended: the boundary generator discards the outcome of the random
read — ToBytes depends only on the bytes the source supplied, never on its
error flag, and generateBoundary always returns `boundary-` plus 32 hex
digits. -/
theorem randomness_failure_ignored (m : Mail) (src src' : RandSrc)
    (qp : QPEnc) (fs : FS) (h : ∀ k, (src k).1 = (src' k).1) :
    m.ToBytes src qp fs = m.ToBytes src' qp fs ∧
    ∀ k, ∃ hex, generateBoundary src k = ascii "boundary-" ++ hex ∧
      hex.length = 32 := by
  have hg : ∀ k, generateBoundary src k = generateBoundary src' k := by
    intro k
    unfold generateBoundary
    rw [h k]
  constructor
  · have ha : assembleBody m src qp fs = assembleBody m src' qp fs := by
      unfold assembleBody
      rw [hg 0, hg 1]
    unfold Mail.ToBytes
    rw [ha]
  · intro k
    refine ⟨_, rfl, ?_⟩
    have hlen : (((src k).1.take 16).map (· % 256)).length ≤ 16 := by
      simp [List.length_take]
    generalize ((src k).1.take 16).map (· % 256) = supplied at hlen ⊢
    rw [flatMap_hex_length]
    simp
    omega

/-- C5 witness: the amended theorem applied to the failing and the healthy
zero source on the attachment scenario. -/
theorem randomness_failure_ignored_witness :
    Mail.ToBytes mScenarioAtt srcZero qpReal fsNone =
      Mail.ToBytes mScenarioAtt srcFail qpReal fsNone :=
  (randomness_failure_ignored mScenarioAtt srcZero srcFail qpReal fsNone
    (fun _ => rfl)).1

/-- splitOnB never returns an empty list of parts. -/
theorem splitOnB_ne_nil (b : Nat) (s : List Nat) : splitOnB b s ≠ [] := by
  induction s with
  | nil => simp [splitOnB]
  | cons c rest ih =>
    simp only [splitOnB]
    split
    · simp
    · rcases h : splitOnB b rest with _ | ⟨x, xs⟩
      · exact absurd h ih
      · simp

/-- joinSep on a cons with a non-empty tail inserts one separator. -/
theorem joinSep_cons (b : Nat) (x : List Nat) (l : List (List Nat)) (h : l ≠ []) :
    joinSep b (x :: l) = x ++ b :: joinSep b l := by
  cases l with
  | nil => exact absurd rfl h
  | cons y ys => rfl

/-- Consing a byte onto the first part commutes with joinSep. -/
theorem joinSep_head_cons (b c : Nat) (x : List Nat) (xs : List (List Nat)) :
    joinSep b ((c :: x) :: xs) = c :: joinSep b (x :: xs) := by
  cases xs <;> rfl

/-- joinSep is a left inverse of splitOnB. -/
theorem joinSep_splitOnB (b : Nat) (s : List Nat) : joinSep b (splitOnB b s) = s := by
  induction s with
  | nil => rfl
  | cons c rest ih =>
    simp only [splitOnB]
    split
    · rename_i hc
      rw [joinSep_cons b [] _ (splitOnB_ne_nil b rest), ih, List.nil_append, hc]
    · rcases h : splitOnB b rest with _ | ⟨x, xs⟩
      · exact absurd h (splitOnB_ne_nil b rest)
      · simp only [List.modifyHead_cons]
        rw [joinSep_head_cons, ← h, ih]

/-- Splitting a list containing the separator splits around it. -/
theorem splitOnB_append (b : Nat) (u v : List Nat) :
    splitOnB b (u ++ b :: v) = splitOnB b u ++ splitOnB b v := by
  induction u with
  | nil => simp [splitOnB]
  | cons c u' ih =>
    simp only [List.cons_append, splitOnB]
    split
    · simp only [List.append_eq]
      rw [ih]
      rfl
    · simp only [List.append_eq]
      rw [ih]
      rcases h : splitOnB b u' with _ | ⟨x, xs⟩
      · exact absurd h (splitOnB_ne_nil b u')
      · simp

/-- A list free of the separator is a single part. -/
theorem splitOnB_not_mem (b : Nat) (s : List Nat) (h : b ∉ s) : splitOnB b s = [s] := by
  induction s with
  | nil => rfl
  | cons c rest ih =>
    have hcb : ¬(c = b) := fun e => h (e ▸ List.mem_cons_self c rest)
    have hrest : b ∉ rest := fun e => h (List.mem_cons_of_mem c e)
    simp [splitOnB, hcb, ih hrest]

/-- Bytes of a part come from the split list and are never the separator. -/
theorem mem_splitOnB_mem (b c : Nat) (s : List Nat) :
    ∀ p, p ∈ splitOnB b s → c ∈ p → c ∈ s ∧ c ≠ b := by
  induction s with
  | nil =>
    intro p hp hc
    simp [splitOnB] at hp
    subst hp
    simp at hc
  | cons d rest ih =>
    intro p hp hc
    simp only [splitOnB] at hp
    split at hp
    · rcases List.mem_cons.mp hp with h1 | h1
      · subst h1
        simp at hc
      · rcases ih p h1 hc with ⟨h2, h3⟩
        exact ⟨List.mem_cons_of_mem d h2, h3⟩
    · rename_i hd
      rcases hx : splitOnB b rest with _ | ⟨x, xs⟩
      · exact absurd hx (splitOnB_ne_nil b rest)
      · rw [hx, List.modifyHead_cons] at hp
        rcases List.mem_cons.mp hp with h1 | h1
        · subst h1
          rcases List.mem_cons.mp hc with h2 | h2
          · subst h2
            exact ⟨List.mem_cons_self c rest, hd⟩
          · rcases ih x (hx ▸ List.mem_cons_self x xs) h2 with ⟨h3, h4⟩
            exact ⟨List.mem_cons_of_mem d h3, h4⟩
        · rcases ih p (hx ▸ List.mem_cons_of_mem x h1) hc with ⟨h3, h4⟩
          exact ⟨List.mem_cons_of_mem d h3, h4⟩

/-- joinSep over a non-empty prefix plus a final part. -/
theorem joinSep_concat (b : Nat) (u : List (List Nat)) (t : List Nat) (h : u ≠ []) :
    joinSep b (u ++ [t]) = joinSep b u ++ b :: t := by
  induction u with
  | nil => exact absurd rfl h
  | cons x u' ih =>
    cases u' with
    | nil => rfl
    | cons y ys =>
      rw [List.cons_append, joinSep_cons b x ((y :: ys) ++ [t]) (by simp),
        ih (by simp), joinSep_cons b x (y :: ys) (by simp), List.append_assoc,
        List.cons_append]

/-- Bytes of a joinSep are the separator or bytes of some part. -/
theorem mem_joinSep (b c : Nat) (u : List (List Nat)) (hc : c ∈ joinSep b u) :
    c = b ∨ ∃ p, p ∈ u ∧ c ∈ p := by
  induction u with
  | nil => simp [joinSep] at hc
  | cons x u' ih =>
    cases u' with
    | nil =>
      exact Or.inr ⟨x, List.mem_cons_self x [], hc⟩
    | cons y ys =>
      rw [joinSep_cons b x (y :: ys) (by simp)] at hc
      rcases List.mem_append.mp hc with h1 | h1
      · exact Or.inr ⟨x, List.mem_cons_self x _, h1⟩
      · rcases List.mem_cons.mp h1 with h2 | h2
        · exact Or.inl h2
        · rcases ih h2 with h3 | ⟨p, hp, hcp⟩
          · exact Or.inl h3
          · exact Or.inr ⟨p, List.mem_cons_of_mem x hp, hcp⟩

/-- Reduction of matchDotTld at a dot. -/
theorem matchDotTld_cons_dot (rest : List Nat) :
    matchDotTld (46 :: rest) = (matchTld rest || matchDotTld rest) := by
  simp [matchDotTld]

/-- Reduction of matchDotTld at a non-dot byte. -/
theorem matchDotTld_cons_ne (b : Nat) (rest : List Nat) (h : ¬(b = 46)) :
    matchDotTld (b :: rest) = (isDomMidB b && matchDotTld rest) := by
  simp [matchDotTld, h]

/-- Reduction of matchLocalAt at the at-sign. -/
theorem matchLocalAt_cons_at (rest : List Nat) :
    matchLocalAt (64 :: rest) = matchDomain rest := by
  simp [matchLocalAt]

/-- Reduction of matchLocalAt at another byte. -/
theorem matchLocalAt_cons_ne (b : Nat) (rest : List Nat) (h : ¬(b = 64)) :
    matchLocalAt (b :: rest) = (isLocalB b && matchLocalAt rest) := by
  simp [matchLocalAt, h]

/-- matchTld characterized: letters only, length at least two. -/
theorem matchTld_iff (t : List Nat) :
    matchTld t = true ↔ t.all isAlphaB = true ∧ 2 ≤ t.length := by
  simp [matchTld]

/-- matchDotTld characterized by the existential the regex denotes. -/
theorem matchDotTld_iff (r : List Nat) :
    matchDotTld r = true ↔
      ∃ m t, r = m ++ 46 :: t ∧ m.all isDomMidB = true ∧ matchTld t = true := by
  induction r with
  | nil =>
    constructor
    · intro h
      exact absurd h (by simp [matchDotTld])
    · rintro ⟨m, t, h, -, -⟩
      exact absurd h.symm (by simp)
  | cons b rest ih =>
    by_cases hb : b = 46
    · subst hb
      rw [matchDotTld_cons_dot, Bool.or_eq_true]
      constructor
      · rintro (h | h)
        · exact ⟨[], rest, rfl, rfl, h⟩
        · rcases ih.mp h with ⟨m, t, he, hm, ht⟩
          refine ⟨46 :: m, t, ?_, ?_, ht⟩
          · rw [List.cons_append, he]
          · simp [List.all_cons, hm]
            decide
      · rintro ⟨m, t, he, hm, ht⟩
        cases m with
        | nil =>
          rw [List.nil_append] at he
          injection he with h1 h2
          exact Or.inl (h2 ▸ ht)
        | cons x m' =>
          rw [List.cons_append] at he
          injection he with h1 h2
          rw [List.all_cons, Bool.and_eq_true] at hm
          exact Or.inr (ih.mpr ⟨m', t, h2, hm.2, ht⟩)
    · rw [matchDotTld_cons_ne b rest hb, Bool.and_eq_true]
      constructor
      · rintro ⟨h1, h2⟩
        rcases ih.mp h2 with ⟨m, t, he, hm, ht⟩
        refine ⟨b :: m, t, ?_, ?_, ht⟩
        · rw [List.cons_append, he]
        · simp [List.all_cons, h1, hm]
      · rintro ⟨m, t, he, hm, ht⟩
        cases m with
        | nil =>
          rw [List.nil_append] at he
          injection he with h1 h2
          exact absurd h1 hb
        | cons x m' =>
          rw [List.cons_append] at he
          injection he with h1 h2
          subst h1
          rw [List.all_cons, Bool.and_eq_true] at hm
          exact ⟨hm.1, ih.mpr ⟨m', t, h2, hm.2, ht⟩⟩

/-- matchDomain characterized: a non-empty middle run, the final dot, the
letters-only label. -/
theorem matchDomain_iff (d : List Nat) :
    matchDomain d = true ↔
      ∃ m t, d = m ++ 46 :: t ∧ m ≠ [] ∧ m.all isDomMidB = true ∧ matchTld t = true := by
  cases d with
  | nil =>
    constructor
    · intro h
      exact absurd h (by simp [matchDomain])
    · rintro ⟨m, t, h, -, -, -⟩
      exact absurd h.symm (by simp)
  | cons b rest =>
    simp only [matchDomain, Bool.and_eq_true]
    rw [matchDotTld_iff]
    constructor
    · rintro ⟨h1, m, t, he, hm, ht⟩
      refine ⟨b :: m, t, ?_, by simp, ?_, ht⟩
      · rw [List.cons_append, he]
      · simp [List.all_cons, h1, hm]
    · rintro ⟨m, t, he, hne, hm, ht⟩
      cases m with
      | nil => exact absurd rfl hne
      | cons x m' =>
        rw [List.cons_append] at he
        injection he with h1 h2
        subst h1
        rw [List.all_cons, Bool.and_eq_true] at hm
        exact ⟨hm.1, ⟨m', t, h2, hm.2, ht⟩⟩

/-- matchLocalAt characterized. -/
theorem matchLocalAt_iff (r : List Nat) :
    matchLocalAt r = true ↔
      ∃ l d, r = l ++ 64 :: d ∧ l.all isLocalB = true ∧ matchDomain d = true := by
  induction r with
  | nil =>
    constructor
    · intro h
      exact absurd h (by simp [matchLocalAt])
    · rintro ⟨l, d, h, -, -⟩
      exact absurd h.symm (by simp)
  | cons b rest ih =>
    by_cases hb : b = 64
    · subst hb
      rw [matchLocalAt_cons_at]
      constructor
      · intro h
        exact ⟨[], rest, rfl, rfl, h⟩
      · rintro ⟨l, d, he, hl, hd⟩
        cases l with
        | nil =>
          rw [List.nil_append] at he
          injection he with h1 h2
          exact h2 ▸ hd
        | cons x l' =>
          rw [List.cons_append] at he
          injection he with h1 h2
          rw [List.all_cons, Bool.and_eq_true] at hl
          rw [← h1] at hl
          exact absurd hl.1 (by decide)
    · rw [matchLocalAt_cons_ne b rest hb, Bool.and_eq_true]
      constructor
      · rintro ⟨h1, h2⟩
        rcases ih.mp h2 with ⟨l, d, he, hl, hd⟩
        refine ⟨b :: l, d, ?_, ?_, hd⟩
        · rw [List.cons_append, he]
        · simp [List.all_cons, h1, hl]
      · rintro ⟨l, d, he, hl, hd⟩
        cases l with
        | nil =>
          rw [List.nil_append] at he
          injection he with h1 h2
          exact absurd h1 hb
        | cons x l' =>
          rw [List.cons_append] at he
          injection he with h1 h2
          subst h1
          rw [List.all_cons, Bool.and_eq_true] at hl
          exact ⟨hl.1, ih.mpr ⟨l', d, h2, hl.2, hd⟩⟩

/-- ValidateEmail characterized by the decomposition the regex denotes. -/
theorem validateEmail_decomp (s : List Nat) :
    ValidateEmail s = true ↔
      ∃ l m t, s = l ++ 64 :: (m ++ 46 :: t) ∧ l ≠ [] ∧ l.all isLocalB = true ∧
        m ≠ [] ∧ m.all isDomMidB = true ∧ matchTld t = true := by
  cases s with
  | nil =>
    constructor
    · intro h
      exact absurd h (by simp [ValidateEmail])
    · rintro ⟨l, m, t, h, -, -, -, -, -⟩
      exact absurd h.symm (by simp)
  | cons b rest =>
    simp only [ValidateEmail, Bool.and_eq_true]
    rw [matchLocalAt_iff]
    constructor
    · rintro ⟨h1, l, d, he, hl, hd⟩
      rcases (matchDomain_iff d).mp hd with ⟨m, t, hde, hmne, hm, ht⟩
      refine ⟨b :: l, m, t, ?_, by simp, ?_, hmne, hm, ht⟩
      · rw [List.cons_append, he, hde]
      · simp [List.all_cons, h1, hl]
    · rintro ⟨l, m, t, he, hne, hl, hmne, hm, ht⟩
      cases l with
      | nil => exact absurd rfl hne
      | cons x l' =>
        rw [List.cons_append] at he
        injection he with h1 h2
        subst h1
        rw [List.all_cons, Bool.and_eq_true] at hl
        refine ⟨hl.1, ⟨l', m ++ 46 :: t, h2, hl.2, ?_⟩⟩
        exact (matchDomain_iff _).mpr ⟨m, t, rfl, hmne, hm, ht⟩

/-- A domain-middle byte other than the dot is a label byte. -/
theorem isDomLabelB_of_mid (c : Nat) (h1 : isDomMidB c = true) (h2 : ¬(c = 46)) :
    isDomLabelB c = true := by
  simp only [isDomMidB, Bool.or_eq_true, decide_eq_true_eq] at h1
  simp only [isDomLabelB, Bool.or_eq_true, decide_eq_true_eq]
  rcases h1 with ((h | h) | h) | h
  · exact Or.inl (Or.inl h)
  · exact Or.inl (Or.inr h)
  · exact absurd h h2
  · exact Or.inr h

/-- A label byte is a domain-middle byte. -/
theorem isDomMidB_of_label (c : Nat) (h : isDomLabelB c = true) : isDomMidB c = true := by
  simp only [isDomLabelB, Bool.or_eq_true, decide_eq_true_eq] at h
  simp only [isDomMidB, Bool.or_eq_true, decide_eq_true_eq]
  rcases h with (h | h) | h
  · exact Or.inl (Or.inl (Or.inl h))
  · exact Or.inl (Or.inl (Or.inr h))
  · exact Or.inr h

/-- A letter is a label byte. -/
theorem isDomLabelB_of_alpha (c : Nat) (h : isAlphaB c = true) : isDomLabelB c = true := by
  simp [isDomLabelB, h]

/-- Unfolding of the amended grammar once the at-split is known. -/
theorem amendedEmailGrammar_eq (s l d : List Nat) (h : splitOnB 64 s = [l, d]) :
    amendedEmailGrammar s =
      (decide (l ≠ []) && l.all isLocalB &&
       (decide (2 ≤ (splitOnB 46 d).length) &&
        (splitOnB 46 d).all (fun p => p.all isDomLabelB) &&
        (match (splitOnB 46 d).getLast? with
         | some t => matchTld t
         | none => false) &&
        !(decide ((splitOnB 46 d).length = 2) &&
          decide ((splitOnB 46 d).head? = some [])))) := by
  unfold amendedEmailGrammar
  rw [h]

/-- The regex decomposition establishes the amended label grammar. -/
theorem amended_grammar_complete (s : List Nat) (h : ValidateEmail s = true) :
    amendedEmailGrammar s = true := by
  rcases (validateEmail_decomp s).mp h with ⟨l, m, t, hs, hlne, hl, hmne, hm, ht⟩
  have htAlpha : t.all isAlphaB = true := ((matchTld_iff t).mp ht).1
  have h64l : (64 : Nat) ∉ l := by
    intro hmem
    have := List.all_eq_true.mp hl _ hmem
    exact absurd this (by decide)
  have h46t : (46 : Nat) ∉ t := by
    intro hmem
    have := List.all_eq_true.mp htAlpha _ hmem
    exact absurd this (by decide)
  have h64d : (64 : Nat) ∉ m ++ 46 :: t := by
    intro hmem
    rcases List.mem_append.mp hmem with h1 | h1
    · have := List.all_eq_true.mp hm _ h1
      exact absurd this (by decide)
    · rcases List.mem_cons.mp h1 with h2 | h2
      · exact absurd h2 (by decide)
      · have := List.all_eq_true.mp htAlpha _ h2
        exact absurd this (by decide)
  have hsplit : splitOnB 64 s = [l, m ++ 46 :: t] := by
    rw [hs, splitOnB_append, splitOnB_not_mem 64 l h64l, splitOnB_not_mem 64 _ h64d]
    rfl
  rw [amendedEmailGrammar_eq s l (m ++ 46 :: t) hsplit]
  have hls : splitOnB 46 (m ++ 46 :: t) = splitOnB 46 m ++ [t] := by
    rw [splitOnB_append, splitOnB_not_mem 46 t h46t]
  rw [hls, List.getLast?_concat]
  have hpos : 1 ≤ (splitOnB 46 m).length :=
    List.length_pos.mpr (splitOnB_ne_nil 46 m)
  have hlen : 2 ≤ (splitOnB 46 m ++ [t]).length := by
    rw [List.length_append, List.length_singleton]
    omega
  have hall : (splitOnB 46 m ++ [t]).all (fun p => p.all isDomLabelB) = true := by
    rw [List.all_eq_true]
    intro p hp
    rcases List.mem_append.mp hp with h1 | h1
    · rw [List.all_eq_true]
      intro c hc
      rcases mem_splitOnB_mem 46 c m p h1 hc with ⟨hcm, hc46⟩
      exact isDomLabelB_of_mid c (List.all_eq_true.mp hm _ hcm) hc46
    · rcases List.mem_cons.mp h1 with h2 | h2
      · subst h2
        rw [List.all_eq_true]
        intro c hc
        exact isDomLabelB_of_alpha c (List.all_eq_true.mp htAlpha _ hc)
      · simp at h2
  have hnot : (decide ((splitOnB 46 m ++ [t]).length = 2) &&
      decide ((splitOnB 46 m ++ [t]).head? = some [])) = false := by
    rcases hsm : splitOnB 46 m with _ | ⟨x, xs⟩
    · exact absurd hsm (splitOnB_ne_nil 46 m)
    · cases xs with
      | nil =>
        have hx : x = m := by
          have hj := joinSep_splitOnB 46 m
          rw [hsm] at hj
          exact hj
        subst hx
        simp [hmne]
      | cons y ys =>
        have hne2 : ((x :: y :: ys) ++ [t]).length ≠ 2 := by
          rw [List.length_append, List.length_cons, List.length_cons,
            List.length_singleton]
          omega
        rw [decide_eq_false hne2, Bool.false_and]
  rw [hnot]
  simp [hlne, hl, hall, ht, hlen, hpos]

/-- The amended label grammar yields the regex decomposition. -/
theorem amended_grammar_sound (s : List Nat) (h : amendedEmailGrammar s = true) :
    ValidateEmail s = true := by
  unfold amendedEmailGrammar at h
  split at h
  case h_2 => exact absurd h (by simp)
  case h_1 l d heq =>
  simp only [Bool.and_eq_true, Bool.not_eq_true', decide_eq_true_eq] at h
  obtain ⟨⟨hlne, hl⟩, ⟨⟨hlen2, hall⟩, hM⟩, hnotB⟩ := h
  rcases hgl : (splitOnB 46 d).getLast? with _ | t
  · rw [hgl] at hM
    simp at hM
  · rw [hgl] at hM
    have ht : matchTld t = true := hM
    have hs : s = l ++ 64 :: d := by
      have hj := joinSep_splitOnB 64 s
      rw [heq] at hj
      exact hj.symm
    have hlsne : splitOnB 46 d ≠ [] := splitOnB_ne_nil 46 d
    have hglast : (splitOnB 46 d).getLast hlsne = t := by
      have := List.getLast?_eq_getLast (splitOnB 46 d) hlsne
      rw [this] at hgl
      exact Option.some.inj hgl
    have hconcat : (splitOnB 46 d).dropLast ++ [t] = splitOnB 46 d := by
      have h2 := List.dropLast_append_getLast hlsne
      rw [hglast] at h2
      exact h2
    have hinitne : (splitOnB 46 d).dropLast ≠ [] := by
      have hlpos : 0 < (splitOnB 46 d).dropLast.length := by
        rw [List.length_dropLast]
        omega
      exact List.ne_nil_of_length_pos hlpos
    have hd2 : d = joinSep 46 ((splitOnB 46 d).dropLast) ++ 46 :: t := by
      have hj := joinSep_splitOnB 46 d
      rw [← hconcat, joinSep_concat 46 _ t hinitne] at hj
      exact hj.symm
    have hmmid : (joinSep 46 ((splitOnB 46 d).dropLast)).all isDomMidB = true := by
      rw [List.all_eq_true]
      intro c hc
      rcases mem_joinSep 46 c _ hc with h1 | ⟨p, hp, hcp⟩
      · subst h1
        decide
      · have hpls : p ∈ splitOnB 46 d := by
          rw [← hconcat]
          exact List.mem_append_left _ hp
        have := List.all_eq_true.mp (List.all_eq_true.mp hall p hpls) c hcp
        exact isDomMidB_of_label c this
    have hmne : joinSep 46 ((splitOnB 46 d).dropLast) ≠ [] := by
      rcases hinit : (splitOnB 46 d).dropLast with _ | ⟨x, xs⟩
      · exact absurd hinit hinitne
      · cases xs with
        | nil =>
          have hxm : joinSep 46 [x] = x := rfl
          rw [hxm]
          intro hx0
          have hlsx : splitOnB 46 d = [x, t] := by
            rw [← hconcat, hinit]
            rfl
          rw [hlsx, hx0] at hnotB
          simp at hnotB
        | cons y ys =>
          rw [joinSep_cons 46 x (y :: ys) (by simp)]
          simp
    exact (validateEmail_decomp s).mpr
      ⟨l, joinSep 46 ((splitOnB 46 d).dropLast), t, by rw [hs, ← hd2], hlne, hl,
        hmne, hmmid, ht⟩

/-- C4 counterexample: the regex and the claimed label grammar disagree in
both directions — the code rejects `a@com` which the claimed grammar
accepts, and accepts `a@..com` which the claimed grammar rejects. -/
theorem validateEmail_spec_grammar_counterexample :
    ValidateEmail (ascii "a@com") = false ∧ specEmailGrammar (ascii "a@com") = true ∧
    ValidateEmail (ascii "a@..com") = true ∧
    specEmailGrammar (ascii "a@..com") = false := by
  refine ⟨by decide, by decide, by decide, by decide⟩

/-- C4, amended: ValidateEmail accepts exactly local@domain where the local
part is one-or-more of letters/digits/`._%+-` and the domain has at least
two `.`-separated labels of letters/digits/`-` that may be empty, a final
letters-only label of length at least two, and at least one character
before the final dot. -/
theorem validateEmail_amended_grammar (s : List Nat) :
    ValidateEmail s = amendedEmailGrammar s := by
  cases h1 : ValidateEmail s
  · cases h2 : amendedEmailGrammar s
    · rfl
    · rw [← h1, amended_grammar_sound s h2]
  · exact (amended_grammar_complete s h1).symm

/-- The index-based wrapping loop equals the countdown form: the budget of
the current line is 76 minus the position within the current line. -/
theorem wrapLoop_eq_chunkWrap : ∀ (s : List Nat) (idx : Nat),
    wrapLoop s idx = chunkWrap (76 - idx % 76) s := by
  intro s
  induction s with
  | nil => intro idx; rfl
  | cons b rest ih =>
    intro idx
    by_cases h : (idx + 1) % 76 = 0
    · have h1 : 76 - idx % 76 = 1 := by omega
      have h2 : 76 - (idx + 1) % 76 = 76 := by omega
      rw [h1]
      simp only [wrapLoop, chunkWrap, if_pos h, ih (idx + 1), h2]
      simp
    · have h1 : ¬(76 - idx % 76 = 1) := by omega
      have h2 : 76 - (idx + 1) % 76 = 76 - idx % 76 - 1 := by omega
      simp only [wrapLoop, chunkWrap, if_neg h, if_neg h1, ih (idx + 1), h2]
      simp

/-- A payload shorter than the remaining budget is copied unchanged. -/
theorem chunkWrap_of_lt : ∀ (r : Nat) (s : List Nat), s.length < r → chunkWrap r s = s := by
  intro r s
  induction s generalizing r with
  | nil => intro h; rfl
  | cons b rest ih =>
    intro h
    rw [List.length_cons] at h
    have h1 : ¬(r = 1) := by omega
    simp only [chunkWrap, if_neg h1]
    rw [ih (r - 1) (by omega)]

/-- A payload reaching the budget gets a CRLF after the first r bytes and
wrapping continues with a fresh budget of 76. -/
theorem chunkWrap_of_ge : ∀ (r : Nat) (s : List Nat), 1 ≤ r → r ≤ s.length →
    chunkWrap r s = s.take r ++ 13 :: 10 :: chunkWrap 76 (s.drop r) := by
  intro r
  induction r with
  | zero =>
    intro s h1 h2
    omega
  | succ n ih =>
    intro s h1 h2
    cases s with
    | nil => simp at h2
    | cons b rest =>
      cases n with
      | zero => simp [chunkWrap]
      | succ k =>
        have hne : ¬(k + 1 + 1 = 1) := by omega
        rw [List.length_cons] at h2
        simp only [chunkWrap, if_neg hne, Nat.add_sub_cancel]
        rw [ih rest (by omega) (by omega)]
        simp [List.take_succ_cons, List.drop_succ_cons]

/-- chunks76F ignores fuel beyond the payload length. -/
theorem chunks76F_congr : ∀ (n m : Nat) (s : List Nat), s.length ≤ n → s.length ≤ m →
    chunks76F n s = chunks76F m s := by
  intro n
  induction n with
  | zero =>
    intro m s h1 h2
    have : s = [] := List.length_eq_zero.mp (by omega)
    subst this
    cases m <;> rfl
  | succ n ih =>
    intro m s h1 h2
    cases s with
    | nil => cases m <;> rfl
    | cons b t =>
      rw [List.length_cons] at h1 h2
      cases m with
      | zero => omega
      | succ m' =>
        simp only [chunks76F]
        congr 1
        exact ih m' ((b :: t).drop 76) (by simp; omega) (by simp; omega)

/-- Unfolding of chunks76 on a non-empty payload. -/
theorem chunks76_unfold (s : List Nat) (h : s ≠ []) :
    chunks76 s = s.take 76 :: chunks76 (s.drop 76) := by
  cases s with
  | nil => contradiction
  | cons b t =>
    show chunks76F (b :: t).length (b :: t) = _
    rw [List.length_cons]
    simp only [chunks76F]
    congr 1
    exact chunks76F_congr t.length ((b :: t).drop 76).length ((b :: t).drop 76)
      (by simp) le_rfl

/-- The countdown wrapping with a full budget is the per-chunk rendering:
every 76-byte chunk is followed by CRLF, a shorter final chunk is not. -/
theorem chunkWrap76_chunks : ∀ (n : Nat) (s : List Nat), s.length ≤ n →
    chunkWrap 76 s =
      ((chunks76 s).map (fun c => if c.length = 76 then c ++ [13, 10] else c)).flatten := by
  intro n
  induction n with
  | zero =>
    intro s h
    have : s = [] := List.length_eq_zero.mp (by omega)
    subst this
    rfl
  | succ n ih =>
    intro s h
    by_cases hnil : s = []
    · subst hnil
      rfl
    · rw [chunks76_unfold s hnil]
      by_cases hlt : s.length < 76
      · rw [chunkWrap_of_lt 76 s hlt]
        have hd : s.drop 76 = [] := List.drop_eq_nil_of_le (by omega)
        have htk : s.take 76 = s := List.take_of_length_le (by omega)
        rw [hd, htk]
        have hc : chunks76 ([] : List Nat) = [] := rfl
        rw [hc]
        simp [if_neg (by omega : ¬(s.length = 76))]
      · push_neg at hlt
        rw [chunkWrap_of_ge 76 s (by omega) hlt]
        rw [ih (s.drop 76) (by rw [List.length_drop]; omega)]
        have htl : (s.take 76).length = 76 := by
          rw [List.length_take]
          omega
        simp [htl]

/-- C1 counterexample: on the single zero byte the encoder's output is a
leading CRLF then `AA==` with no trailing CRLF, not the spec's `AA==`
followed by CRLF. -/
theorem writeBytes_spec_counterexample :
    writeBytesOut [0] ≠ specEncodeBinary [0] ∧
    writeBytesOut [0] = [13, 10, 65, 65, 61, 61] ∧
    specEncodeBinary [0] = [65, 65, 61, 61, 13, 10] := by
  refine ⟨by decide, by decide, by decide⟩

/-- C1, amended: writeBytes first emits one CRLF (the blank line closing
the part headers), then the standard padded base64 stream with a CRLF
inserted after every full 76-character line; a final line shorter than 76
characters receives no trailing CRLF. -/
theorem writeBytes_amended (file : List Nat) :
    writeBytesOut file = crlf ++
      ((chunks76 (base64Encode file)).map
        (fun c => if c.length = 76 then c ++ [13, 10] else c)).flatten := by
  unfold writeBytesOut
  congr 1
  rw [wrapLoop_eq_chunkWrap (base64Encode file) 0]
  exact chunkWrap76_chunks (base64Encode file).length _ le_rfl

/-- Decoding inverts the alphabet table on 6-bit values. -/
theorem b64d_b64c : ∀ x, x < 64 → b64d (b64c x) = x := by decide

/-- No alphabet byte is the padding byte 61. -/
theorem b64c_ne_61 : ∀ x, x < 64 → ¬(b64c x = 61) := by decide

/-- No alphabet byte is CR or LF. -/
theorem b64c_ne_crlf : ∀ x, x < 64 → ¬(b64c x = 13) ∧ ¬(b64c x = 10) := by decide

/-- Every byte of a base64 encoding is padding or an alphabet byte. -/
theorem mem_base64Encode : ∀ (f : List Nat) (c : Nat), c ∈ base64Encode f →
    c = 61 ∨ ∃ x, x < 64 ∧ c = b64c x := by
  intro f
  induction f using base64Encode.induct with
  | case1 =>
    intro c hc
    simp [base64Encode] at hc
  | case2 a =>
    intro c hc
    simp only [base64Encode] at hc
    rcases List.mem_cons.mp hc with h | h
    · exact Or.inr ⟨_, Nat.mod_lt _ (by omega), h⟩
    rcases List.mem_cons.mp h with h | h
    · exact Or.inr ⟨_, Nat.mod_lt _ (by omega), h⟩
    rcases List.mem_cons.mp h with h | h
    · exact Or.inl h
    rcases List.mem_cons.mp h with h | h
    · exact Or.inl h
    · simp at h
  | case3 a b =>
    intro c hc
    simp only [base64Encode] at hc
    rcases List.mem_cons.mp hc with h | h
    · exact Or.inr ⟨_, Nat.mod_lt _ (by omega), h⟩
    rcases List.mem_cons.mp h with h | h
    · exact Or.inr ⟨_, Nat.mod_lt _ (by omega), h⟩
    rcases List.mem_cons.mp h with h | h
    · exact Or.inr ⟨_, Nat.mod_lt _ (by omega), h⟩
    rcases List.mem_cons.mp h with h | h
    · exact Or.inl h
    · simp at h
  | case4 a b cc rest ih =>
    intro c hc
    simp only [base64Encode] at hc
    rcases List.mem_cons.mp hc with h | h
    · exact Or.inr ⟨_, Nat.mod_lt _ (by omega), h⟩
    rcases List.mem_cons.mp h with h | h
    · exact Or.inr ⟨_, Nat.mod_lt _ (by omega), h⟩
    rcases List.mem_cons.mp h with h | h
    · exact Or.inr ⟨_, Nat.mod_lt _ (by omega), h⟩
    rcases List.mem_cons.mp h with h | h
    · exact Or.inr ⟨_, Nat.mod_lt _ (by omega), h⟩
    · exact ih c h

/-- Standard base64 decoding inverts the encoder on byte-valued input. -/
theorem base64_decode_encode : ∀ (f : List Nat), (∀ b ∈ f, b < 256) →
    base64Decode (base64Encode f) = f := by
  intro f
  induction f using base64Encode.induct with
  | case1 =>
    intro h
    rfl
  | case2 a =>
    intro h
    have ha : a < 256 := h a (by simp)
    have h1 : a * 65536 / 262144 % 64 < 64 := Nat.mod_lt _ (by omega)
    have h2 : a * 65536 / 4096 % 64 < 64 := Nat.mod_lt _ (by omega)
    simp only [base64Encode, base64Decode]
    rw [if_true, b64d_b64c _ h1, b64d_b64c _ h2]
    simp
    omega
  | case3 a b =>
    intro h
    have ha : a < 256 := h a (by simp)
    have hb : b < 256 := h b (by simp)
    have h1 : (a * 65536 + b * 256) / 262144 % 64 < 64 := Nat.mod_lt _ (by omega)
    have h2 : (a * 65536 + b * 256) / 4096 % 64 < 64 := Nat.mod_lt _ (by omega)
    have h3 : (a * 65536 + b * 256) / 64 % 64 < 64 := Nat.mod_lt _ (by omega)
    simp only [base64Encode, base64Decode]
    rw [if_neg (b64c_ne_61 _ h3), if_true, b64d_b64c _ h1, b64d_b64c _ h2,
      b64d_b64c _ h3]
    simp
    omega
  | case4 a b cc rest ih =>
    intro h
    have ha : a < 256 := h a (by simp)
    have hb : b < 256 := h b (by simp)
    have hc : cc < 256 := h cc (by simp)
    have hrest : ∀ x ∈ rest, x < 256 := fun x hx =>
      h x (List.mem_cons_of_mem a (List.mem_cons_of_mem b (List.mem_cons_of_mem cc hx)))
    have h1 : (a * 65536 + b * 256 + cc) / 262144 % 64 < 64 := Nat.mod_lt _ (by omega)
    have h2 : (a * 65536 + b * 256 + cc) / 4096 % 64 < 64 := Nat.mod_lt _ (by omega)
    have h3 : (a * 65536 + b * 256 + cc) / 64 % 64 < 64 := Nat.mod_lt _ (by omega)
    have h4 : (a * 65536 + b * 256 + cc) % 64 < 64 := Nat.mod_lt _ (by omega)
    simp only [base64Encode, base64Decode]
    rw [if_neg (b64c_ne_61 _ h3), if_neg (b64c_ne_61 _ h4), b64d_b64c _ h1,
      b64d_b64c _ h2, b64d_b64c _ h3, b64d_b64c _ h4, ih hrest]
    simp
    omega

/-- An optional CRLF insertion disappears under removeCRLF. -/
theorem removeCRLF_pad (c : Prop) [Decidable c] (w : List Nat) :
    removeCRLF ((if c then [13, 10] else []) ++ w) = removeCRLF w := by
  by_cases h : c
  · rw [if_pos h]
    rfl
  · rw [if_neg h]
    rfl

/-- Removing CR and LF undoes the wrapping loop's insertions. -/
theorem removeCRLF_wrapLoop : ∀ (s : List Nat) (idx : Nat),
    removeCRLF (wrapLoop s idx) = removeCRLF s := by
  intro s
  induction s with
  | nil => intro idx; rfl
  | cons b rest ih =>
    intro idx
    show removeCRLF (b :: ((if (idx + 1) % 76 = 0 then [13, 10] else []) ++
      wrapLoop rest (idx + 1))) = removeCRLF (b :: rest)
    rw [removeCRLF, removeCRLF, List.filter_cons, List.filter_cons]
    have hx : List.filter (fun b => !(b = 13 || b = 10))
        ((if (idx + 1) % 76 = 0 then [13, 10] else []) ++ wrapLoop rest (idx + 1)) =
        List.filter (fun b => !(b = 13 || b = 10)) rest := by
      have h1 := removeCRLF_pad ((idx + 1) % 76 = 0) (wrapLoop rest (idx + 1))
      have h2 := ih (idx + 1)
      simp only [removeCRLF] at h1 h2
      rw [h1, h2]
    rw [hx]

/-- A base64 stream contains no CR and no LF, so removing them is the
identity. -/
theorem removeCRLF_base64 (f : List Nat) :
    removeCRLF (base64Encode f) = base64Encode f := by
  rw [removeCRLF, List.filter_eq_self]
  intro c hc
  rcases mem_base64Encode f c hc with h | ⟨x, hx, he⟩
  · subst h
    decide
  · subst he
    rcases b64c_ne_crlf x hx with ⟨h13, h10⟩
    simp [h13, h10]

/-- C7: stripping the inserted CRLF line breaks from a writeBytes payload
and base64-decoding recovers the original bytes exactly. -/
theorem writeBytes_roundtrip (file : List Nat) (hb : ∀ b ∈ file, b < 256) :
    base64Decode (removeCRLF (writeBytesOut file)) = file := by
  unfold writeBytesOut
  have h0 : removeCRLF (crlf ++ wrapLoop (base64Encode file) 0) =
      removeCRLF (wrapLoop (base64Encode file) 0) := rfl
  rw [h0, removeCRLF_wrapLoop, removeCRLF_base64, base64_decode_encode file hb]

/-- C7 witness: the round trip evaluated on the bytes of `hello`. -/
theorem writeBytes_roundtrip_witness :
    base64Decode (removeCRLF (writeBytesOut (ascii "hello"))) = ascii "hello" :=
  writeBytes_roundtrip (ascii "hello") (by decide)

/-- splitCRLF never returns an empty list. -/
theorem splitCRLF_ne_nil : ∀ (l : List Nat), splitCRLF l ≠ [] := by
  intro l
  induction l using splitCRLF.induct with
  | case1 => simp [splitCRLF]
  | case2 b => simp [splitCRLF]
  | case3 b c rest h ih =>
    simp [splitCRLF, h]
  | case4 b c rest h ih =>
    simp only [splitCRLF, if_neg h]
    rcases hx : splitCRLF (c :: rest) with _ | ⟨x, xs⟩
    · exact absurd hx ih
    · simp

/-- Prepending a non-CR byte extends the first line. -/
theorem splitCRLF_cons (b : Nat) (w : List Nat) (hb : ¬(b = 13)) :
    splitCRLF (b :: w) = (splitCRLF w).modifyHead (b :: ·) := by
  cases w with
  | nil => rfl
  | cons c rest =>
    simp only [splitCRLF]
    rw [if_neg (fun hc => hb hc.1)]

/-- A CR-free stream is a single line. -/
theorem splitCRLF_no13 : ∀ (l : List Nat), (13 : Nat) ∉ l → splitCRLF l = [l] := by
  intro l
  induction l using splitCRLF.induct with
  | case1 => intro h; rfl
  | case2 b => intro h; rfl
  | case3 b c rest h ih =>
    intro hmem
    exact absurd (h.1 ▸ List.mem_cons_self b (c :: rest)) hmem
  | case4 b c rest h ih =>
    intro hmem
    have hb : ¬(b = 13) := fun e => hmem (e ▸ List.mem_cons_self b (c :: rest))
    have hrest : (13 : Nat) ∉ c :: rest := fun e => hmem (List.mem_cons_of_mem b e)
    rw [splitCRLF_cons b (c :: rest) hb, ih hrest]
    simp

/-- Splitting a CR-free line terminated by CRLF peels off that line. -/
theorem splitCRLF_line : ∀ (l r : List Nat), (13 : Nat) ∉ l →
    splitCRLF (l ++ 13 :: 10 :: r) = l :: splitCRLF r := by
  intro l
  induction l with
  | nil =>
    intro r h
    simp [splitCRLF]
  | cons a l' ih =>
    intro r h
    have ha : ¬(a = 13) := fun e => h (e ▸ List.mem_cons_self a l')
    have h' : (13 : Nat) ∉ l' := fun e => h (List.mem_cons_of_mem a e)
    rw [List.cons_append, splitCRLF_cons a (l' ++ 13 :: 10 :: r) ha, ih r h']
    simp

/-- Lines of a stream of CRLF-terminated CR-free lines followed by a
CR-free tail. -/
theorem splitCRLF_shape : ∀ (ls : List (List Nat)) (t : List Nat),
    (∀ l ∈ ls, (13 : Nat) ∉ l) → (13 : Nat) ∉ t →
    splitCRLF ((ls.map (· ++ [13, 10])).flatten ++ t) = ls ++ [t] := by
  intro ls
  induction ls with
  | nil =>
    intro t h ht
    simp [splitCRLF_no13 t ht]
  | cons l ls' ih =>
    intro t h ht
    have hl : (13 : Nat) ∉ l := h l (List.mem_cons_self l ls')
    have h' : ∀ x ∈ ls', (13 : Nat) ∉ x := fun x hx => h x (List.mem_cons_of_mem l hx)
    simp only [List.map_cons, List.flatten_cons, List.append_assoc]
    show splitCRLF (l ++ 13 :: 10 ::
      ((List.map (fun x => x ++ [13, 10]) ls').flatten ++ t)) = l :: ls' ++ [t]
    rw [splitCRLF_line l _ hl, ih t h' ht]
    rfl

/-- Every line of a countdown-wrapped CR-free payload fits in 76 bytes; the
first line additionally fits the remaining budget. -/
theorem chunkWrap_lines : ∀ (s : List Nat) (r : Nat), 1 ≤ r → r ≤ 76 → (13 : Nat) ∉ s →
    (∀ l ∈ splitCRLF (chunkWrap r s), l.length ≤ 76) ∧
    ((splitCRLF (chunkWrap r s)).headD []).length ≤ r := by
  intro s
  induction s with
  | nil =>
    intro r h1 h2 h3
    constructor
    · intro l hl
      simp [chunkWrap, splitCRLF] at hl
      simp [hl]
    · simp [chunkWrap, splitCRLF]
  | cons b rest ih =>
    intro r h1 h2 h3
    have hb : ¬(b = 13) := fun e => h3 (e ▸ List.mem_cons_self b rest)
    have hrest : (13 : Nat) ∉ rest := fun e => h3 (List.mem_cons_of_mem b e)
    by_cases hr : r = 1
    · subst hr
      have hred : chunkWrap 1 (b :: rest) = [b] ++ 13 :: 10 :: chunkWrap 76 rest := by
        simp [chunkWrap]
      have h13b : (13 : Nat) ∉ [b] := by
        simp
        omega
      rw [hred, splitCRLF_line [b] _ h13b]
      rcases ih 76 (by omega) (by omega) hrest with ⟨ih1, -⟩
      constructor
      · intro l hl
        rcases List.mem_cons.mp hl with h | h
        · subst h
          simp
        · exact ih1 l h
      · simp
    · have hred : chunkWrap r (b :: rest) = b :: chunkWrap (r - 1) rest := by
        simp [chunkWrap, hr]
      rw [hred, splitCRLF_cons b _ hb]
      rcases ih (r - 1) (by omega) (by omega) hrest with ⟨ih1, ih2⟩
      rcases hsp : splitCRLF (chunkWrap (r - 1) rest) with _ | ⟨h0, ltail⟩
      · exact absurd hsp (splitCRLF_ne_nil _)
      · rw [hsp] at ih2
        simp only [List.headD_cons] at ih2
        simp only [List.modifyHead_cons]
        constructor
        · intro l hl
          rcases List.mem_cons.mp hl with h | h
          · subst h
            simp only [List.length_cons]
            omega
          · exact ih1 l (hsp ▸ List.mem_cons_of_mem h0 h)
        · simp only [List.headD_cons, List.length_cons]
          omega

/-- Hex digit bytes are never CR or LF. -/
theorem hexUp_ne_crlf (n : Nat) : ¬(hexUp n = 13) ∧ ¬(hexUp n = 10) := by
  by_cases h : n < 16
  · have hall : ∀ m, m < 16 → ¬(hexUp m = 13) ∧ ¬(hexUp m = 10) := by decide
    exact hall n h
  · have hd : hexUp n = 0 := by
      unfold hexUp
      apply List.getD_eq_default
      have hlen : (ascii "0123456789ABCDEF").length = 16 := by decide
      omega
    rw [hd]
    exact ⟨by decide, by decide⟩

/-- insertCRLF flushes a completed CR-free line of at most 76 bytes: the
buffer empties and the output keeps the line-stream shape. -/
theorem qpInsertCRLF_inv (w : QPW)
    (hout : ∃ ls, w.out = (List.map (fun x => x ++ [13, 10]) ls).flatten ∧
      ∀ l ∈ ls, l.length ≤ 76 ∧ (13 : Nat) ∉ l)
    (hlen : w.line.length ≤ 76) (h13 : (13 : Nat) ∉ w.line) :
    (qpInsertCRLF w).line = [] ∧ (qpInsertCRLF w).cr = w.cr ∧
    (∃ ls, (qpInsertCRLF w).out = (List.map (fun x => x ++ [13, 10]) ls).flatten ∧
      ∀ l ∈ ls, l.length ≤ 76 ∧ (13 : Nat) ∉ l) := by
  obtain ⟨ls, ho, hl⟩ := hout
  refine ⟨rfl, rfl, ⟨ls ++ [w.line], ?_, ?_⟩⟩
  · show w.out ++ (w.line ++ [13, 10]) = _
    rw [ho]
    simp
  · intro l hl2
    rcases List.mem_append.mp hl2 with h | h
    · exact hl l h
    · rcases List.mem_cons.mp h with h2 | h2
      · subst h2
        exact ⟨hlen, h13⟩
      · simp at h2

/-- A soft line break flushes the buffer plus `=` as a line of at most 76
bytes. -/
theorem qpSoftBreak_inv (w : QPW)
    (hout : ∃ ls, w.out = (List.map (fun x => x ++ [13, 10]) ls).flatten ∧
      ∀ l ∈ ls, l.length ≤ 76 ∧ (13 : Nat) ∉ l)
    (hlen : w.line.length ≤ 75) (h13 : (13 : Nat) ∉ w.line) :
    (qpSoftBreak w).line = [] ∧ (qpSoftBreak w).cr = w.cr ∧
    (∃ ls, (qpSoftBreak w).out = (List.map (fun x => x ++ [13, 10]) ls).flatten ∧
      ∀ l ∈ ls, l.length ≤ 76 ∧ (13 : Nat) ∉ l) := by
  have h1 : ({ w with line := w.line ++ [61] } : QPW).line.length ≤ 76 := by
    simp
    omega
  have h2 : (13 : Nat) ∉ ({ w with line := w.line ++ [61] } : QPW).line := by
    intro hm
    rcases List.mem_append.mp hm with h | h
    · exact h13 h
    · simp at h
  exact qpInsertCRLF_inv { w with line := w.line ++ [61] } hout h1 h2

/-- Escaping one byte keeps the buffer within 75 CR-free bytes and the
output well-shaped. -/
theorem qpEncodeB_inv (b : Nat) (w : QPW)
    (hout : ∃ ls, w.out = (List.map (fun x => x ++ [13, 10]) ls).flatten ∧
      ∀ l ∈ ls, l.length ≤ 76 ∧ (13 : Nat) ∉ l)
    (hlen : w.line.length ≤ 75) (h13 : (13 : Nat) ∉ w.line) :
    (qpEncodeB b w).line.length ≤ 75 ∧ (13 : Nat) ∉ (qpEncodeB b w).line ∧
    (qpEncodeB b w).cr = w.cr ∧
    (∃ ls, (qpEncodeB b w).out = (List.map (fun x => x ++ [13, 10]) ls).flatten ∧
      ∀ l ∈ ls, l.length ≤ 76 ∧ (13 : Nat) ∉ l) := by
  have hesc : (13 : Nat) ∉ [61, hexUp (b / 16 % 16), hexUp (b % 16)] := by
    intro hm
    rcases List.mem_cons.mp hm with h | h
    · simp at h
    rcases List.mem_cons.mp h with h | h
    · exact (hexUp_ne_crlf (b / 16 % 16)).1 h.symm
    rcases List.mem_cons.mp h with h | h
    · exact (hexUp_ne_crlf (b % 16)).1 h.symm
    · simp at h
  by_cases hc : 75 - w.line.length < 3
  · obtain ⟨hline0, hcr0, hout0⟩ := qpSoftBreak_inv w hout hlen h13
    unfold qpEncodeB
    rw [if_pos hc]
    refine ⟨?_, ?_, ?_, ?_⟩
    · rw [hline0]
      simp
    · rw [hline0]
      simpa using hesc
    · exact hcr0
    · exact hout0
  · unfold qpEncodeB
    rw [if_neg hc]
    refine ⟨?_, ?_, rfl, hout⟩
    · simp
      omega
    · intro hm
      rcases List.mem_append.mp hm with h | h
      · exact h13 h
      · exact hesc h

/-- The trailing-whitespace check keeps the buffer within 75 CR-free bytes
and the output well-shaped. -/
theorem qpCheckLast_inv (w : QPW)
    (hout : ∃ ls, w.out = (List.map (fun x => x ++ [13, 10]) ls).flatten ∧
      ∀ l ∈ ls, l.length ≤ 76 ∧ (13 : Nat) ∉ l)
    (hlen : w.line.length ≤ 75) (h13 : (13 : Nat) ∉ w.line) :
    (qpCheckLast w).line.length ≤ 75 ∧ (13 : Nat) ∉ (qpCheckLast w).line ∧
    (∃ ls, (qpCheckLast w).out = (List.map (fun x => x ++ [13, 10]) ls).flatten ∧
      ∀ l ∈ ls, l.length ≤ 76 ∧ (13 : Nat) ∉ l) := by
  have hdl : ({ w with line := w.line.dropLast } : QPW).line.length ≤ 75 := by
    simp [List.length_dropLast]
    omega
  have hd13 : (13 : Nat) ∉ ({ w with line := w.line.dropLast } : QPW).line :=
    fun hm => h13 ((List.dropLast_sublist w.line).subset hm)
  rcases hgl : w.line.getLast? with _ | b
  · have hred : qpCheckLast w = w := by
      unfold qpCheckLast
      rw [hgl]
    rw [hred]
    exact ⟨hlen, h13, hout⟩
  · have hred : qpCheckLast w =
        if (decide (b = 32) || decide (b = 9)) = true then
          qpEncodeB b { w with line := w.line.dropLast }
        else w := by
      unfold qpCheckLast
      rw [hgl]
    rw [hred]
    by_cases h32 : b = 32
    · rw [if_pos (by simp [h32])]
      obtain ⟨a1, a2, a3, a4⟩ := qpEncodeB_inv b { w with line := w.line.dropLast }
        hout hdl hd13
      exact ⟨a1, a2, a4⟩
    · by_cases h9 : b = 9
      · rw [if_pos (by simp [h9])]
        obtain ⟨a1, a2, a3, a4⟩ := qpEncodeB_inv b { w with line := w.line.dropLast }
          hout hdl hd13
        exact ⟨a1, a2, a4⟩
      · rw [if_neg (by simp [h32, h9])]
        exact ⟨hlen, h13, hout⟩

/-- The literal-byte write keeps the buffer within 75 CR-free bytes and the
output well-shaped. -/
theorem qpWriteB_inv (b : Nat) (w : QPW)
    (hout : ∃ ls, w.out = (List.map (fun x => x ++ [13, 10]) ls).flatten ∧
      ∀ l ∈ ls, l.length ≤ 76 ∧ (13 : Nat) ∉ l)
    (hlen : w.line.length ≤ 75) (h13 : (13 : Nat) ∉ w.line) :
    (qpWriteB b w).line.length ≤ 75 ∧ (13 : Nat) ∉ (qpWriteB b w).line ∧
    (∃ ls, (qpWriteB b w).out = (List.map (fun x => x ++ [13, 10]) ls).flatten ∧
      ∀ l ∈ ls, l.length ≤ 76 ∧ (13 : Nat) ∉ l) := by
  unfold qpWriteB
  split
  · split
    · exact ⟨hlen, h13, hout⟩
    · obtain ⟨b1, b2, b3⟩ := qpCheckLast_inv { w with cr := b = 13 } hout hlen h13
      obtain ⟨c1, c2, c3⟩ := qpInsertCRLF_inv _ b3 (by omega) b2
      rw [c1]
      exact ⟨by simp, by simp, c3⟩
  · rename_i hnot
    have hb1310 : ¬(b = 13) ∧ ¬(b = 10) := by
      simp at hnot
      exact hnot
    have hmem : ∀ (u : List Nat), (13 : Nat) ∉ u → (13 : Nat) ∉ u ++ [b] := by
      intro u hu hm
      rcases List.mem_append.mp hm with h | h
      · exact hu h
      · simp at h
        exact hb1310.1 h.symm
    split
    · obtain ⟨c1, c2, c3⟩ := qpSoftBreak_inv w hout hlen h13
      refine ⟨?_, ?_, c3⟩
      · simp only [c1]
        simp
      · simp only [c1]
        intro hm
        simp at hm
        exact hb1310.1 hm.symm
    · rename_i hne75
      refine ⟨?_, hmem w.line h13, hout⟩
      simp only [List.length_append, List.length_singleton]
      have : w.line.length ≠ 75 := hne75
      omega

/-- One step of Writer.Write preserves the invariant. -/
theorem qpStep_inv (w : QPW) (b : Nat)
    (hout : ∃ ls, w.out = (List.map (fun x => x ++ [13, 10]) ls).flatten ∧
      ∀ l ∈ ls, l.length ≤ 76 ∧ (13 : Nat) ∉ l)
    (hlen : w.line.length ≤ 75) (h13 : (13 : Nat) ∉ w.line) :
    (qpStep w b).line.length ≤ 75 ∧ (13 : Nat) ∉ (qpStep w b).line ∧
    (∃ ls, (qpStep w b).out = (List.map (fun x => x ++ [13, 10]) ls).flatten ∧
      ∀ l ∈ ls, l.length ≤ 76 ∧ (13 : Nat) ∉ l) := by
  unfold qpStep
  split
  · exact qpWriteB_inv b w hout hlen h13
  · obtain ⟨a1, a2, a3, a4⟩ := qpEncodeB_inv b w hout hlen h13
    exact ⟨a1, a2, a4⟩

/-- The whole Write loop preserves the invariant. -/
theorem qpFold_inv : ∀ (p : List Nat) (w : QPW),
    (∃ ls, w.out = (List.map (fun x => x ++ [13, 10]) ls).flatten ∧
      ∀ l ∈ ls, l.length ≤ 76 ∧ (13 : Nat) ∉ l) →
    w.line.length ≤ 75 → (13 : Nat) ∉ w.line →
    ((p.foldl qpStep w).line.length ≤ 75 ∧ (13 : Nat) ∉ (p.foldl qpStep w).line ∧
    (∃ ls, (p.foldl qpStep w).out = (List.map (fun x => x ++ [13, 10]) ls).flatten ∧
      ∀ l ∈ ls, l.length ≤ 76 ∧ (13 : Nat) ∉ l)) := by
  intro p
  induction p with
  | nil =>
    intro w hout hlen h13
    exact ⟨hlen, h13, hout⟩
  | cons b rest ih =>
    intro w hout hlen h13
    rw [List.foldl_cons]
    obtain ⟨a1, a2, a3⟩ := qpStep_inv w b hout hlen h13
    exact ih (qpStep w b) a3 a1 a2

/-- Every line the quoted-printable writer emits fits in 76 bytes. -/
theorem qpGo_lines (p : List Nat) : ∀ l ∈ splitCRLF (qpGo p), l.length ≤ 76 := by
  have hinit : (∃ ls, (({ out := [], line := [], cr := false } : QPW)).out =
      (List.map (fun x => x ++ [13, 10]) ls).flatten ∧
      ∀ l ∈ ls, l.length ≤ 76 ∧ (13 : Nat) ∉ l) := ⟨[], rfl, by simp⟩
  obtain ⟨a1, a2, a3⟩ := qpFold_inv p { out := [], line := [], cr := false }
    hinit (by simp) (by simp)
  obtain ⟨b1, b2, ls, ho, hl⟩ := qpCheckLast_inv _ a3 a1 a2
  intro l hm
  unfold qpGo qpClose qpFlush at hm
  simp only at hm
  rw [ho] at hm
  rw [splitCRLF_shape ls _ (fun x hx => (hl x hx).2) b2] at hm
  rcases List.mem_append.mp hm with h | h
  · exact (hl l h).1
  · rcases List.mem_cons.mp h with h2 | h2
    · subst h2
      omega
    · simp at h2

/-- C8: every encoded line — quoted-printable body lines and base64
attachment or inline lines alike — is at most 76 characters long, not
counting the CRLF terminator. -/
theorem encoded_line_length_bound (body file : List Nat) :
    (∀ l ∈ splitCRLF (qpGo body), l.length ≤ 76) ∧
    (∀ l ∈ splitCRLF (writeBytesOut file), l.length ≤ 76) := by
  refine ⟨qpGo_lines body, ?_⟩
  have h13 : (13 : Nat) ∉ base64Encode file := by
    intro hm
    rcases mem_base64Encode file 13 hm with h | ⟨x, hx, he⟩
    · exact absurd h (by decide)
    · exact (b64c_ne_crlf x hx).1 he.symm
  intro l hm
  have hred : writeBytesOut file = [] ++ 13 :: 10 :: chunkWrap 76 (base64Encode file) := by
    unfold writeBytesOut
    rw [wrapLoop_eq_chunkWrap (base64Encode file) 0]
    rfl
  rw [hred, splitCRLF_line [] _ (by simp)] at hm
  rcases List.mem_cons.mp hm with h | h
  · subst h
    simp
  · exact (chunkWrap_lines (base64Encode file) 76 (by omega) (by omega) h13).1 l h

/-- find? finds nothing when every entry validates. -/
theorem find_invalid_none (tos : List (List Nat)) (h : tos.all ValidateEmail = true) :
    tos.find? (fun a => !ValidateEmail a) = none := by
  rw [List.find?_eq_none]
  intro x hx
  simp [List.all_eq_true.mp h x hx]

set_option maxRecDepth 200000 in
/-- C6: a message with no attachments and no inline resources never gets a
multipart wrapper — the output is exactly the four headers, then the
top-level body Content-Type and transfer-encoding headers, then the
quoted-printable body, independent of the generated boundary; and on the
spec's plain-text scenario the output contains the text/plain header and
neither a `multipart` token nor a boundary token. -/
theorem no_multipart_without_parts (m : Mail) (src : RandSrc) (qp : QPEnc) (fs : FS)
    (qpB : List Nat) (hA : m.Attachment = []) (hI : m.Inline = [])
    (hTo : ¬(m.To = [])) (hBody : ¬(m.Body = []))
    (hFrom : ValidateEmail m.From = true) (hToV : m.To.all ValidateEmail = true)
    (hqp : qp m.Body = .ok qpB) :
    m.ToBytes src qp fs =
      (some (headerLines m.From m.To m.Subject ++ bodyHdrs m.MT ++ qpB), none) ∧
    ((ascii "Content-Type: text/plain; charset=UTF-8") <:+:
      (headerLines (ascii "a@b.com") [ascii "c@d.com"] (ascii "Hi") ++
        bodyHdrs .PlainText ++ ascii "hello")) ∧
    ¬((ascii "multipart") <:+:
      (headerLines (ascii "a@b.com") [ascii "c@d.com"] (ascii "Hi") ++
        bodyHdrs .PlainText ++ ascii "hello")) ∧
    ¬((ascii "boundary") <:+:
      (headerLines (ascii "a@b.com") [ascii "c@d.com"] (ascii "Hi") ++
        bodyHdrs .PlainText ++ ascii "hello")) := by
  refine ⟨?_, by decide, by decide, by decide⟩
  have hfind := find_invalid_none m.To hToV
  simp only [Mail.ToBytes, if_neg hTo, if_neg hBody, hFrom, if_true, hfind]
  unfold assembleBody
  rw [hA, hI, hqp]
  simp [Except.map]

set_option maxRecDepth 8192 in
/-- C6 witness: the scenario message assembled with the real
quoted-printable writer. -/
theorem no_multipart_without_parts_witness :
    Mail.ToBytes mScenario srcZero qpReal fsNone =
      (some (headerLines (ascii "a@b.com") [ascii "c@d.com"] (ascii "Hi") ++
        bodyHdrs .PlainText ++ ascii "hello"), none) :=
  (no_multipart_without_parts mScenario srcZero qpReal fsNone (ascii "hello")
    rfl rfl (by decide) (by decide) (by decide) (by decide) rfl).1

/-- A five-way concatenation is its own head plus a tail. -/
theorem exists_tail_append (a b c d e : List Nat) :
    ∃ rest, a ++ b ++ c ++ d ++ e = a ++ rest :=
  ⟨b ++ (c ++ (d ++ e)), by simp [List.append_assoc]⟩

/-- A successful assembly always starts with the four header lines. -/
theorem assembleBody_headers (m : Mail) (src : RandSrc) (qp : QPEnc) (fs : FS)
    (bytes : List Nat) (h : assembleBody m src qp fs = .ok bytes) :
    ∃ rest, bytes = headerLines m.From m.To m.Subject ++ rest := by
  simp only [assembleBody] at h
  split at h
  · exact absurd h (by simp)
  · split at h
    · exact absurd h (by simp)
    · rw [Except.ok.injEq] at h
      rw [← h]
      exact exists_tail_append _ _ _ _ _

set_option maxRecDepth 8192 in
/-- C9 counterexample: a subject consisting of the single ASCII control
byte BEL (0x07) contains no non-ASCII byte, yet the emitted Subject line
carries the Q-encoded form, not the raw subject. -/
theorem header_lines_counterexample :
    mCtrlSubject.Subject.all (fun b => b < 128) = true ∧
    ¬(mimeQEncode mCtrlSubject.Subject = mCtrlSubject.Subject) ∧
    Mail.ToBytes mCtrlSubject srcZero qpReal fsNone =
      (some (ascii "From: a@b.com" ++ crlf ++ ascii "To: c@d.com" ++ crlf ++
        ascii "Subject: =?utf-8?q?=07?=" ++ crlf ++ ascii "MIME-Version: 1.0" ++ crlf ++
        bodyHdrs .PlainText ++ ascii "hello"), none) ∧
    ¬((ascii "Subject: " ++ [7] ++ crlf) <:+:
      (ascii "From: a@b.com" ++ crlf ++ ascii "To: c@d.com" ++ crlf ++
        ascii "Subject: =?utf-8?q?=07?=" ++ crlf ++ ascii "MIME-Version: 1.0" ++ crlf ++
        bodyHdrs .PlainText ++ ascii "hello")) := by
  refine ⟨by decide, by decide, by decide, by decide⟩

/-- C9, amended: every successful ToBytes output begins with exactly the
lines `From: <from>`, `To: <recipients joined with comma-space in caller
order>`, `Subject: <mime.QEncoding of the subject>`, `MIME-Version: 1.0`,
each CRLF-terminated; the subject passes through unencoded exactly when
every byte is printable ASCII or TAB, and otherwise — including for ASCII
control bytes — it is Q-encoded with the utf-8 charset. -/
theorem header_lines_amended (m : Mail) (src : RandSrc) (qp : QPEnc) (fs : FS)
    (out : List Nat) (h : (m.ToBytes src qp fs).1 = some out) :
    (∃ rest, out =
      ascii "From: " ++ m.From ++ crlf ++
      ascii "To: " ++ joinComma m.To ++ crlf ++
      ascii "Subject: " ++ mimeQEncode m.Subject ++ crlf ++
      ascii "MIME-Version: 1.0" ++ crlf ++ rest) ∧
    (needsEncoding m.Subject = false → mimeQEncode m.Subject = m.Subject) ∧
    (needsEncoding m.Subject = true → mimeQEncode m.Subject =
      ascii "=?utf-8?q?" ++ qEncodeLoop m.Subject.length m.Subject 0 ++ ascii "?=") ∧
    (needsEncoding m.Subject =
      m.Subject.any (fun b => (b < 32 && b ≠ 9) || 126 < b)) := by
  refine ⟨?_, ?_, ?_, rfl⟩
  · unfold Mail.ToBytes at h
    split at h
    · exact absurd h (by simp)
    split at h
    · exact absurd h (by simp)
    split at h
    · split at h
      · exact absurd h (by simp)
      · split at h
        · exact absurd h (by simp)
        · rename_i bytes hab
          rcases assembleBody_headers m src qp fs bytes hab with ⟨rest, hb⟩
          simp only [Option.some.injEq] at h
          refine ⟨rest, ?_⟩
          rw [← h, hb]
          simp [headerLines, List.append_assoc]
    · exact absurd h (by simp)
  · intro hn
    simp [mimeQEncode, hn]
  · intro hn
    simp [mimeQEncode, hn]

set_option maxRecDepth 8192 in
/-- C9 witness: the amended header contract evaluated on the scenario
message. -/
theorem header_lines_amended_witness :
    (Mail.ToBytes mScenario srcZero qpReal fsNone).1 =
      some (headerLines (ascii "a@b.com") [ascii "c@d.com"] (ascii "Hi") ++
        bodyHdrs .PlainText ++ ascii "hello") ∧
    (∃ rest, headerLines (ascii "a@b.com") [ascii "c@d.com"] (ascii "Hi") ++
        bodyHdrs .PlainText ++ ascii "hello" =
      ascii "From: " ++ ascii "a@b.com" ++ crlf ++
      ascii "To: " ++ joinComma [ascii "c@d.com"] ++ crlf ++
      ascii "Subject: " ++ mimeQEncode (ascii "Hi") ++ crlf ++
      ascii "MIME-Version: 1.0" ++ crlf ++ rest) := by
  have h1 : (Mail.ToBytes mScenario srcZero qpReal fsNone).1 =
      some (headerLines (ascii "a@b.com") [ascii "c@d.com"] (ascii "Hi") ++
        bodyHdrs .PlainText ++ ascii "hello") := by decide
  exact ⟨h1, (header_lines_amended mScenario srcZero qpReal fsNone _ h1).1⟩

/-- C10: on messages without inline resources whose From and To addresses
all pass the validator, the validating variant and the mail.go variant
return identical (buffer, error) pairs for every randomness source
(hence the same boundary token), quoted-printable writer, and filesystem
— including the same errors on an empty recipient list or empty body. -/
theorem variants_equivalent (m : Mail) (src : RandSrc) (qp : QPEnc) (fs : FS)
    (hI : m.Inline = []) (hFrom : ValidateEmail m.From = true)
    (hToV : m.To.all ValidateEmail = true) :
    m.ToBytes src qp fs = (m.toV1).ToBytes src qp fs := by
  by_cases hTo : m.To = []
  · simp [Mail.ToBytes, Mail1.ToBytes, Mail.toV1, hTo]
  · by_cases hBody : m.Body = []
    · simp [Mail.ToBytes, Mail1.ToBytes, Mail.toV1, hTo, hBody]
    · have hfind := find_invalid_none m.To hToV
      simp only [Mail.ToBytes, Mail1.ToBytes, Mail.toV1, if_neg hTo, if_neg hBody,
        hFrom, if_true, hfind]
      unfold assembleBody
      rw [hI]
      simp only [List.isEmpty_nil, Bool.not_true, Bool.or_false, Bool.false_eq_true,
        if_false]
      cases hq : qp m.Body with
      | error e => simp [Except.map, hq]
      | ok qpB =>
        simp only [Except.map, hq]
        cases hac : (if (!m.Attachment.isEmpty) = true then
            attachmentChunks fs (generateBoundary src 0) m.Attachment
          else Except.ok []) with
        | error e => simp
        | ok attS =>
          by_cases hA : m.Attachment.isEmpty
          · rw [hA] at hac
            simp at hac
            subst hac
            simp [hA, List.append_assoc]
          · simp only [hA, Bool.not_false, if_true, Bool.false_eq_true]
            simp [List.append_assoc]
  
/-- C10 witness: both variants on the attachment scenario with the same
collaborators. -/
theorem variants_equivalent_witness :
    Mail.ToBytes mScenarioAtt srcZero qpReal fsNone =
      Mail1.ToBytes (Mail.toV1 mScenarioAtt) srcZero qpReal fsNone :=
  variants_equivalent mScenarioAtt srcZero qpReal fsNone rfl (by decide) (by decide)
